import Mathlib

/-!
Alignment/CommonAlignment: tree traversals and transform utilities.

A shallow embedding of `Alignable.cc` (the traversals `deepComponents` and
`firstCompsWithParams`, the accumulated rotation and displacement, the
rotations about the principal axes), of `Utilities.cc` (`toAngles`,
`toMatrix`, `motherPosition`, `diffRot`, `rectify`), of `AlignSetup.h` and of
`AlignableDetOrUnitPtr.cc`, followed by the properties proved about them.

Conventions of the embedding:

* An `Alignable*` is modelled by the node it points to.  A node carries its
  `theDetId`, whether `theAlignmentParameters` is non-null, and the ordered
  vector returned by `components()`.
* A `std::vector` passed by reference and filled by `push_back` is a `List`
  that is passed in and returned; `push_back x` is `l ++ [x]`.
* `Scalar`/`double` is an arbitrary field `K` for the rational operations and
  `ℝ` where `sin`, `cos`, `asin`, `atan2` are involved.  Two features of
  `double` that a number does not have are kept where the code reaches them on
  ordinary input: the values `+∞`, `-∞` and NaN that the unguarded division of
  `motherPosition` produces for an empty vector (`align.Scalar`), and the sign
  of a zero, on which `std::atan2` depends (`align.ZeroSigns`).
* The `unsigned int` loop counters hold vector sizes, which are taken to be
  below `2^32`, so that they are natural numbers without wrap-around.
* The `while (true)` loop of `diffRot` is given a number of passes it may
  make (`fuel`); a result `some R` means the loop broke within that number.
-/

/-! ## The composite node -/

/-- An `Alignable` node: `theDetId`, whether `theAlignmentParameters` is
non-null, and the children returned by `components()`. -/
inductive Alignable where
  | mk (theDetId : Nat) (theAlignmentParameters : Bool) (comps : List Alignable)

namespace Alignable

/-- The direct children, `Alignable::components()`. -/
def components : Alignable → List Alignable
  | mk _ _ comps => comps

/-- The test `if (alignmentParameters())`: true when the node owns a block. -/
def alignmentParameters : Alignable → Bool
  | mk _ p _ => p

/-- The identifier `theDetId`. -/
def theDetId : Alignable → Nat
  | mk d _ _ => d

/-! ### `deepComponents` -/

mutual
/-- The mutable overload `Alignable::deepComponents(std::vector<Alignable*>&)`:
descend into every component when there is one, else push `this`. -/
def deepComponents : Alignable → List Alignable → List Alignable
  | mk d p comp, result =>
    if comp.length > 0 then deepComponentsLoop comp result
    else result ++ [mk d p comp]
/-- The loop `for (i = 0; i < nComp; ++i) comp[i]->deepComponents(result)`. -/
def deepComponentsLoop : List Alignable → List Alignable → List Alignable
  | [], result => result
  | c :: rest, result => deepComponentsLoop rest (deepComponents c result)
end

mutual
/-- The const overload
`Alignable::deepComponents(std::vector<const Alignable*>&) const`. -/
def deepComponentsConst : Alignable → List Alignable → List Alignable
  | mk d p comp, result =>
    if comp.length > 0 then deepComponentsConstLoop comp result
    else result ++ [mk d p comp]
/-- The loop of the const overload. -/
def deepComponentsConstLoop : List Alignable → List Alignable → List Alignable
  | [], result => result
  | c :: rest, result => deepComponentsConstLoop rest (deepComponentsConst c result)
end

/-! ### `firstCompsWithParams` -/

/-- The local variables of `firstCompsWithParams` that the loop updates,
together with the vector `paramComps` it appends to. -/
structure CompsState where
  isConsistent : Bool
  hasAliComp : Bool
  first : Bool
  paramComps : List Alignable

mutual
/-- The function `Alignable::firstCompsWithParams(paramComps)`: the returned
flag `isConsistent` and the vector `paramComps` after the call. -/
def firstCompsWithParams : Alignable → List Alignable → Bool × List Alignable
  | mk _ _ comps, paramComps =>
    let s := firstCompsLoop comps ⟨true, false, true, paramComps⟩
    (s.isConsistent, s.paramComps)
/-- The loop over `comps` in `firstCompsWithParams`, one child per step. -/
def firstCompsLoop : List Alignable → CompsState → CompsState
  | [], s => s
  | iComp :: rest, s =>
    if iComp.alignmentParameters then
      -- component has parameters itself
      let paramComps := s.paramComps ++ [iComp]
      let isConsistent := if !s.first && !s.hasAliComp then false else s.isConsistent
      firstCompsLoop rest ⟨isConsistent, true, false, paramComps⟩
    else
      let nCompBefore := s.paramComps.length
      let r := firstCompsWithParams iComp s.paramComps
      -- problem down in hierarchy
      let isConsistent := if !r.1 then false else s.isConsistent
      if r.2.length != nCompBefore then
        let isConsistent := if !s.first && !s.hasAliComp then false else isConsistent
        firstCompsLoop rest ⟨isConsistent, true, false, r.2⟩
      else if s.hasAliComp then
        -- no components with params, but previous component did have comps.
        firstCompsLoop rest ⟨false, s.hasAliComp, false, r.2⟩
      else
        firstCompsLoop rest ⟨isConsistent, s.hasAliComp, false, r.2⟩
end

/-! ### The traversals as the specification words them -/

mutual
/-- The proper descendants of a node, depth first and left to right (each
child, then that child's own descendants, then the next child). -/
def properDescendants : Alignable → List Alignable
  | mk _ _ comps => descendantsOfList comps
/-- The nodes of a list of subtrees, depth first and left to right. -/
def descendantsOfList : List Alignable → List Alignable
  | [] => []
  | c :: rest => c :: (properDescendants c ++ descendantsOfList rest)
end

/-- A leaf is a node with no components. -/
def isLeaf (a : Alignable) : Bool := a.components.isEmpty

/-- The leaf descendants of a node in depth-first left-to-right order. -/
def leafDescendants (a : Alignable) : List Alignable :=
  (properDescendants a).filter isLeaf

mutual
/-- The proper descendants of a node, depth first and left to right, each
paired with whether some ancestor of it strictly below the starting node
owns a parameter block; `covered` is that fact for the node's own children. -/
def descendantsCovered : Alignable → Bool → List (Alignable × Bool)
  | mk _ _ comps, covered => descendantsCoveredList comps covered
/-- The flagged descendants of a list of sibling subtrees. -/
def descendantsCoveredList : List Alignable → Bool → List (Alignable × Bool)
  | [], _ => []
  | c :: rest, covered =>
    (c, covered) ::
      (descendantsCovered c (covered || c.alignmentParameters) ++
        descendantsCoveredList rest covered)
end

/-- The proper descendants that own a parameter block and have no
parameter-owning ancestor strictly below the starting node, in depth-first
left-to-right order. -/
def firstParamDescendants (a : Alignable) : List Alignable :=
  ((descendantsCovered a false).filter
    (fun nc => nc.1.alignmentParameters && !nc.2)).map Prod.fst

/-- What one child hands to the output list: the child itself when it owns a
parameter block, otherwise what the recursive call on it yields. -/
def childYield (c : Alignable) : List Alignable :=
  if c.alignmentParameters then [c] else (firstCompsWithParams c []).2

/-! ### Quantities used to state the properties of `firstCompsWithParams` -/

/-- The flag a call on `c` returns when started on the empty vector. -/
def flagOf (c : Alignable) : Bool := (firstCompsWithParams c []).1

/-- The nodes a call on `c` appends when started on the empty vector. -/
def foundOf (c : Alignable) : List Alignable := (firstCompsWithParams c []).2

/-- Whether child `c` adds at least one node to the output vector. -/
def contributes (c : Alignable) : Bool :=
  c.alignmentParameters || (foundOf c).length != 0

/-- Whether nothing is reported from below child `c`. -/
def okBelow (c : Alignable) : Bool := c.alignmentParameters || flagOf c

/-- Child `c`, visited while the output vector holds `l`, adds at least one
node to it: it owns a block and is pushed itself, or the recursive call on it
leaves the vector longer than `nCompBefore`. -/
def contributesTo (c : Alignable) (l : List Alignable) : Prop :=
  c.alignmentParameters = true ∨ (firstCompsWithParams c l).2.length ≠ l.length

/-- What `deepComponents` is to append for node `a`: its leaf descendants, or
the node itself when it is a leaf. -/
def leavesOf (a : Alignable) : List Alignable :=
  if a.components.length > 0 then leafDescendants a else [a]

/-- A leaf with identifier `d`, with or without a parameter block. -/
def leaf (d : Nat) (p : Bool) : Alignable := mk d p []

/-- A middle-level node whose left child owns a parameter block and whose
right child owns none; neither child has components. -/
def mixedNode : Alignable := mk 1 false [leaf 2 true, leaf 3 false]

/-- A three-level tree with `mixedNode` as its middle level. -/
def mixedTree : Alignable := mk 0 false [mixedNode]

/-- A node whose first two children contribute nothing and whose third child
owns a parameter block. -/
def lateNode : Alignable := mk 0 false [leaf 1 false, leaf 2 false, leaf 3 true]

/-- A tree of depth three whose leaves are 3, 4, 5 and 6 from left to right. -/
def deepTree : Alignable :=
  mk 0 false [mk 1 false [leaf 3 false, leaf 4 true], mk 2 true [leaf 5 false, leaf 6 false]]

end Alignable

/-! ## Vectors and matrices of the transform utilities -/

/-- A triple of scalars: a `GlobalVector`, a `PositionType`, an
`AlgebraicVector(3)` or the `EulerAngles` (`angles(1)`, `angles(2)`,
`angles(3)` are the fields `x`, `y`, `z`). -/
@[ext]
structure Vec3 (K : Type) where
  x : K
  y : K
  z : K

/-- A `RotationType`: the nine entries in the order of its constructor
`RotationType(xx, xy, xz, yx, yy, yz, zx, zy, zz)`. -/
@[ext]
structure Mat3 (K : Type) where
  xx : K
  xy : K
  xz : K
  yx : K
  yy : K
  yz : K
  zx : K
  zy : K
  zz : K

/-- An `AlgebraicSymMatrix(3)`: only the entries with row index at least the
column index are stored, `mij` being `fast(i, j)`. -/
@[ext]
structure SymMat3 (K : Type) where
  m11 : K
  m21 : K
  m22 : K
  m31 : K
  m32 : K
  m33 : K

namespace Vec3

variable {K : Type}

/-- The zero vector, the value of a freshly constructed `AlgebraicVector(3)`. -/
def zero [Zero K] : Vec3 K := ⟨0, 0, 0⟩

/-- The componentwise negation of a vector. -/
def neg [Neg K] (v : Vec3 K) : Vec3 K := ⟨-v.x, -v.y, -v.z⟩

/-- The squared length `normsq()`. -/
def normsq [Add K] [Mul K] (v : Vec3 K) : K := v.x * v.x + v.y * v.y + v.z * v.z

end Vec3

namespace Mat3

variable {K : Type}

/-- Modelled from the spec: the default-constructed `RotationType` (its class
is declared outside these sources) is the identity rotation. -/
def one [Zero K] [One K] : Mat3 K := ⟨1, 0, 0, 0, 1, 0, 0, 0, 1⟩

/-- Modelled from the spec: `RotationType::operator*` (declared outside these
sources) is the row-by-column product, so that `rot *= m` is `R := R · m`. -/
def mul [Add K] [Mul K] (a b : Mat3 K) : Mat3 K :=
  ⟨a.xx * b.xx + a.xy * b.yx + a.xz * b.zx,
   a.xx * b.xy + a.xy * b.yy + a.xz * b.zy,
   a.xx * b.xz + a.xy * b.yz + a.xz * b.zz,
   a.yx * b.xx + a.yy * b.yx + a.yz * b.zx,
   a.yx * b.xy + a.yy * b.yy + a.yz * b.zy,
   a.yx * b.xz + a.yy * b.yz + a.yz * b.zz,
   a.zx * b.xx + a.zy * b.yx + a.zz * b.zx,
   a.zx * b.xy + a.zy * b.yy + a.zz * b.zy,
   a.zx * b.xz + a.zy * b.yz + a.zz * b.zz⟩

/-- The transposed matrix. -/
def transpose (a : Mat3 K) : Mat3 K :=
  ⟨a.xx, a.yx, a.zx, a.xy, a.yy, a.zy, a.xz, a.yz, a.zz⟩

/-- The matrix applied to a column vector. -/
def mulVec [Add K] [Mul K] (a : Mat3 K) (v : Vec3 K) : Vec3 K :=
  ⟨a.xx * v.x + a.xy * v.y + a.xz * v.z,
   a.yx * v.x + a.yy * v.y + a.yz * v.z,
   a.zx * v.x + a.zy * v.y + a.zz * v.z⟩

/-- Modelled from the spec: `RotationType::multiplyInverse` (declared outside
these sources) applies the inverse rotation `R⁻¹`, which for a rotation
matrix is the transpose, to a vector. -/
def multiplyInverse [Add K] [Mul K] (a : Mat3 K) (v : Vec3 K) : Vec3 K :=
  ⟨a.xx * v.x + a.yx * v.y + a.zx * v.z,
   a.xy * v.x + a.yy * v.y + a.zy * v.z,
   a.xz * v.x + a.yz * v.y + a.zz * v.z⟩

/-- The determinant, expanded along the first row. -/
def det [Add K] [Sub K] [Mul K] (a : Mat3 K) : K :=
  a.xx * (a.yy * a.zz - a.yz * a.zy) - a.xy * (a.yx * a.zz - a.yz * a.zx)
    + a.xz * (a.yx * a.zy - a.yy * a.zx)

/-- A proper rotation matrix: orthogonal with determinant one. -/
def IsProperRotation [Zero K] [One K] [Add K] [Sub K] [Mul K] (a : Mat3 K) : Prop :=
  mul a (transpose a) = one ∧ det a = 1

end Mat3

namespace SymMat3

variable {K : Type}

/-- The zero matrix, the value of a freshly constructed `AlgebraicSymMatrix(3)`. -/
def zero [Zero K] : SymMat3 K := ⟨0, 0, 0, 0, 0, 0⟩

/-- The determinant of the symmetric matrix, expanded along the first row. -/
def det [Add K] [Sub K] [Mul K] (a : SymMat3 K) : K :=
  a.m11 * (a.m22 * a.m33 - a.m32 * a.m32) - a.m21 * (a.m21 * a.m33 - a.m32 * a.m31)
    + a.m31 * (a.m21 * a.m32 - a.m22 * a.m31)

/-- The symmetric matrix applied to a column vector. -/
def mulVec [Add K] [Mul K] (a : SymMat3 K) (v : Vec3 K) : Vec3 K :=
  ⟨a.m11 * v.x + a.m21 * v.y + a.m31 * v.z,
   a.m21 * v.x + a.m22 * v.y + a.m32 * v.z,
   a.m31 * v.x + a.m32 * v.y + a.m33 * v.z⟩

end SymMat3

/-! ## `Utilities.cc` -/

namespace align

variable {K : Type}

/-- The principal-axis rotation `Rz(θ) = [[cos θ, sin θ, 0], [-sin θ, cos θ, 0],
[0, 0, 1]]` as `rotateAroundGlobalZ` builds it. -/
noncomputable def Rz (radians : ℝ) : Mat3 ℝ :=
  ⟨Real.cos radians, Real.sin radians, 0,
   -Real.sin radians, Real.cos radians, 0,
   0, 0, 1⟩

/-- Whether the arguments `y` and `x` of a call of `std::atan2` are the
negative zero `-0.0` when they are zero.  A `double` zero carries a sign that
the real number `0` does not have. -/
structure ZeroSigns where
  yNeg : Bool
  xNeg : Bool

/-- The two-argument arctangent `std::atan2(y, x)`: the angle of the point
`(x, y)`.  For `y = ±0` it is `±0` when `x` is positive or `+0`, and `±π` when
`x` is negative or `-0`; elsewhere it is the argument of `x + iy`, which lies
strictly between `-π` and `π`. -/
noncomputable def atan2 (s : ZeroSigns) (y x : ℝ) : ℝ :=
  if y = 0 then
    if 0 < x ∨ (x = 0 ∧ s.xNeg = false) then 0
    else if s.yNeg then -Real.pi else Real.pi
  else Complex.arg ⟨x, y⟩

/-- Whether the `double` sum `a + b` is the negative zero, for a sum that is
zero: `(-0) + (-0)` is `-0`; every other sum of zeros, and the sum of a number
and its negative, is `+0`.  The flags `na`, `nb` tell whether `a`, `b` are
`-0.0` when they are zero. -/
noncomputable def sumNegZero (a b : ℝ) (na nb : Bool) : Bool :=
  decide (a = 0) && decide (b = 0) && na && nb

/-- Whether the `double` difference `a - b` is the negative zero, for a
difference that is zero: `(-0) - (+0)` is `-0`; every other difference of
zeros, and the difference of equal numbers, is `+0`. -/
noncomputable def diffNegZero (a b : ℝ) (na nb : Bool) : Bool :=
  decide (a = 0) && decide (b = 0) && na && !nb

/-- The function `align::toAngles` (the warning it logs has no effect on the
result).  The matrix `negZero` tells for each entry of `rot` whether it is
`-0.0` when it is zero; the product with `.5` keeps the sign of a zero. -/
noncomputable def toAngles (negZero : Mat3 Bool) (rot : Mat3 ℝ) : Vec3 ℝ :=
  if |rot.zx| < 1 then
    ⟨-atan2 ⟨negZero.zy, negZero.zz⟩ rot.zy rot.zz,
     Real.arcsin rot.zx,
     -atan2 ⟨negZero.yx, negZero.xx⟩ rot.yx rot.xx⟩
  else
    ⟨atan2 ⟨sumNegZero rot.xy rot.yz negZero.xy negZero.yz,
            diffNegZero rot.yy rot.xz negZero.yy negZero.xz⟩
        (0.5 * (rot.xy + rot.yz)) (0.5 * (rot.yy - rot.xz)),
     Real.arcsin (if rot.zx > 0 then 1 else -1),
     0⟩

/-- The function `align::toMatrix`. -/
noncomputable def toMatrix (angles : Vec3 ℝ) : Mat3 ℝ :=
  let s1 := Real.sin angles.x
  let c1 := Real.cos angles.x
  let s2 := Real.sin angles.y
  let c2 := Real.cos angles.y
  let s3 := Real.sin angles.z
  let c3 := Real.cos angles.z
  ⟨c2 * c3, c1 * s3 + s1 * s2 * c3, s1 * s3 - c1 * s2 * c3,
   -c2 * s3, c1 * c3 - s1 * s2 * s3, s1 * c3 + c1 * s2 * s3,
   s2, -s1 * c2, c1 * c2⟩

/-- The function `align::rectify`: the matrix that replaces `rot`. -/
noncomputable def rectify (negZero : Mat3 Bool) (rot : Mat3 ℝ) : Mat3 ℝ :=
  toMatrix (toAngles negZero rot)

/-- A `Scalar` (`double`) as `motherPosition` returns it: a number, or one of
the values `+∞`, `-∞` and NaN that the arithmetic of `double` gives once it has
divided by zero. -/
inductive Scalar (K : Type) where
  | num (v : K)
  | posInf
  | negInf
  | nan
  deriving DecidableEq

/-- The quotient `1. / x` of `double`s for a count `x` that was converted from
`unsigned int`: `+∞` when `x` is zero, nothing being raised. -/
def Scalar.oneOver [LinearOrderedField K] (x : K) : Scalar K :=
  if x = 0 then .posInf else .num (1 / x)

/-- The product `pos * inv` of `double`s for a number `pos`: zero times an
infinity is NaN, any other number times an infinity is an infinity of the
product's sign, and NaN stays NaN. -/
def Scalar.scale [LinearOrderedField K] (pos : K) : Scalar K → Scalar K
  | .num i => .num (pos * i)
  | .posInf => if pos = 0 then .nan else if 0 < pos then .posInf else .negInf
  | .negInf => if pos = 0 then .nan else if 0 < pos then .negInf else .posInf
  | .nan => .nan

/-- Every coordinate of the position is a number. -/
def IsDefinedPosition (p : Vec3 (Scalar K)) : Prop :=
  (∃ x : K, p.x = .num x) ∧ (∃ y : K, p.y = .num y) ∧ (∃ z : K, p.z = .num z)

/-- The position whose coordinates are the numbers of `p`. -/
def numPosition (p : Vec3 K) : Vec3 (Scalar K) := ⟨.num p.x, .num p.y, .num p.z⟩

/-- One pass of the summing loop of `motherPosition`. -/
def motherStep [Add K] (pos point : Vec3 K) : Vec3 K :=
  ⟨pos.x + point.x, pos.y + point.y, pos.z + point.z⟩

/-- The function `align::motherPosition`.  The daughters' coordinates are
numbers; the division `1. / nDau` is not guarded, so the coordinates of the
result are `Scalar`s, which for `nDau = 0` are `0. * (+∞)`. -/
def motherPosition [LinearOrderedField K] (dauPos : List (Vec3 K)) : Vec3 (Scalar K) :=
  let nDau := dauPos.length
  let pos := dauPos.foldl motherStep ⟨0, 0, 0⟩
  let inv : Scalar K := Scalar.oneOver (nDau : K)
  ⟨Scalar.scale pos.x inv, Scalar.scale pos.y inv, Scalar.scale pos.z inv⟩

/-- One pass of the loop of `diffRot` that fills the inertia tensor. -/
def inertiaStep [Add K] [Sub K] [Mul K] (I : SymMat3 K) (r : Vec3 K) : SymMat3 K :=
  { m11 := I.m11 + (r.y * r.y + r.z * r.z)
    m22 := I.m22 + (r.x * r.x + r.z * r.z)
    m33 := I.m33 + (r.y * r.y + r.x * r.x)
    m21 := I.m21 - r.x * r.y
    m31 := I.m31 - r.x * r.z
    m32 := I.m32 - r.y * r.z }

/-- The inertia tensor `I` that `diffRot` builds from the nominal vectors. -/
def inertia [Zero K] [Add K] [Sub K] [Mul K] (nominal : List (Vec3 K)) : SymMat3 K :=
  nominal.foldl inertiaStep SymMat3.zero

/-- One pass of the loop of `diffRot` that sums the cross products: `cr` is
the pair `(rotated[j], nominal[j])`. -/
def rhsStep [Add K] [Sub K] [Mul K] (rhs : Vec3 K) (cr : Vec3 K × Vec3 K) : Vec3 K :=
  let c := cr.1
  let r := cr.2
  ⟨rhs.x + (c.y * r.z - c.z * r.y),
   rhs.y + (c.z * r.x - c.x * r.z),
   rhs.z + (c.x * r.y - c.y * r.x)⟩

/-- The vector `rhs` of one pass of the `while` loop: the sum over `j` below
`nominal.size()` of the cross products of `rotated[j]` and `nominal[j]`. -/
def rhsSum [Zero K] [Add K] [Sub K] [Mul K] (rotated nominal : List (Vec3 K)) : Vec3 K :=
  (rotated.zip nominal).foldl rhsStep Vec3.zero

/-- Modelled from the spec: `CLHEP::solve(I, rhs)` (a library routine outside
these sources) solves the 3×3 linear system `I · dOmega = rhs`.  It inverts
`I` by cofactors and fails when the determinant is zero. -/
def solve [Field K] [DecidableEq K] (I : SymMat3 K) (rhs : Vec3 K) : Option (Vec3 K) :=
  let c11 := I.m22 * I.m33 - I.m32 * I.m32
  let c12 := I.m31 * I.m32 - I.m21 * I.m33
  let c13 := I.m21 * I.m32 - I.m22 * I.m31
  let c22 := I.m11 * I.m33 - I.m31 * I.m31
  let c23 := I.m21 * I.m31 - I.m11 * I.m32
  let c33 := I.m11 * I.m22 - I.m21 * I.m21
  if I.det = 0 then none
  else
    some ⟨(c11 * rhs.x + c12 * rhs.y + c13 * rhs.z) / I.det,
          (c12 * rhs.x + c22 * rhs.y + c23 * rhs.z) / I.det,
          (c13 * rhs.x + c23 * rhs.y + c33 * rhs.z) / I.det⟩

/-- The constant `tolerance` of `diffRot`. -/
noncomputable def tolerance : ℝ := 1e-8

/-- The correction `dOmega` solved in one pass of the `while` loop of
`diffRot` from the vectors `rotated`. -/
noncomputable def solveStep (I : SymMat3 ℝ) (nominal rotated : List (Vec3 ℝ)) :
    Option (Vec3 ℝ) :=
  solve I (rhsSum rotated nominal)

/-- The loop of `diffRot` that moves the current vectors: the first `nPoints`
entries of `rotated` become `rot.multiplyInverse(current[j])`. -/
def moveCurrent [Add K] [Mul K] (nPoints : Nat) (rot : Mat3 K) (current rotated : List (Vec3 K)) :
    List (Vec3 K) :=
  (current.take nPoints).map rot.multiplyInverse ++ rotated.drop nPoints

/-- The `while (true)` loop of `diffRot`; every pass uses one unit of `fuel`
and `none` is returned when the fuel runs out before the loop breaks or when
`solve` fails. -/
noncomputable def diffRotLoop (current nominal : List (Vec3 ℝ)) (I : SymMat3 ℝ) :
    Nat → Mat3 ℝ → List (Vec3 ℝ) → Option (Mat3 ℝ)
  | 0, _, _ => none
  | fuel + 1, rot, rotated =>
    match solveStep I nominal rotated with
    | none => none
    | some dOmega =>
      if dOmega.normsq < tolerance then some rot
      else
        let rot := rot.mul (toMatrix dOmega)
        diffRotLoop current nominal I fuel rot
          (moveCurrent nominal.length rot current rotated)

/-- The function `align::diffRot`.  Reading `current[j]` for `j` below
`nominal.size()` is defined only when `current` is at least as long as
`nominal`; otherwise no result is returned. -/
noncomputable def diffRot (fuel : Nat) (current nominal : List (Vec3 ℝ)) : Option (Mat3 ℝ) :=
  if current.length < nominal.length then none
  else diffRotLoop current nominal (inertia nominal) fuel Mat3.one current

/-! ### Quantities used to state the properties of `diffRot` -/

/-- All points of the list lie on one line. -/
def Collinear (l : List (Vec3 ℝ)) : Prop :=
  ∃ p d : Vec3 ℝ, ∀ q ∈ l, ∃ t : ℝ, q = ⟨p.x + t * d.x, p.y + t * d.y, p.z + t * d.z⟩

/-- Every entry of `a` is within `eps` of the corresponding entry of `b`. -/
def EntriesWithin (eps : ℝ) (a b : Mat3 ℝ) : Prop :=
  |a.xx - b.xx| ≤ eps ∧ |a.xy - b.xy| ≤ eps ∧ |a.xz - b.xz| ≤ eps ∧
  |a.yx - b.yx| ≤ eps ∧ |a.yy - b.yy| ≤ eps ∧ |a.yz - b.yz| ≤ eps ∧
  |a.zx - b.zx| ≤ eps ∧ |a.zy - b.zy| ≤ eps ∧ |a.zz - b.zz| ≤ eps

/-- A cloud of three non-collinear points with `Σ x·z ≠ 0`. -/
def skewCloud : List (Vec3 ℝ) := [⟨1, 0, 1⟩, ⟨0, 1, 0⟩, ⟨0, 0, 1⟩]

/-- A cloud of three non-collinear points in the plane `z = 0`. -/
def flatCloud : List (Vec3 ℝ) := [⟨1, 0, 0⟩, ⟨0, 1, 0⟩, ⟨1, 1, 0⟩]

/-- The relation the two accumulating loops of `diffRot` keep between the
inertia tensor and the summed cross products when `rotated[j]` is
`Rz(φ)·nominal[j]`. -/
def RzRel (φ : ℝ) (I : SymMat3 ℝ) (rhs : Vec3 ℝ) : Prop :=
  rhs.x = Real.sin φ * I.m31 - (Real.cos φ - 1) * I.m32 ∧
  rhs.y = (Real.cos φ - 1) * I.m31 + Real.sin φ * I.m32 ∧
  rhs.z = Real.sin φ * I.m33

/-- The rotation by the angle of the 3-4-5 triangle about the z axis. -/
noncomputable def pythagoreanRot : Mat3 ℝ := ⟨3 / 5, 4 / 5, 0, -(4 / 5), 3 / 5, 0, 0, 0, 1⟩

end align

/-! ## Further definitions: rotations of a node, registry, Det-or-Unit pointer -/

namespace Vec3

variable {K : Type}

/-- Modelled from the spec: `GlobalVector::operator+=` (its class is declared
outside these sources) is the componentwise sum. -/
def add [Add K] (v w : Vec3 K) : Vec3 K := ⟨v.x + w.x, v.y + w.y, v.z + w.z⟩

/-- The scalar product of two vectors. -/
def dot [Add K] [Mul K] (v w : Vec3 K) : K := v.x * w.x + v.y * w.y + v.z * w.z

/-- The cross product of two vectors. -/
def cross [Sub K] [Mul K] (v w : Vec3 K) : Vec3 K :=
  ⟨v.y * w.z - v.z * w.y, v.z * w.x - v.x * w.z, v.x * w.y - v.y * w.x⟩

end Vec3

namespace SymMat3

variable {K : Type}

/-- The full 3×3 matrix that the stored lower triangle stands for: `fast(i, j)`
is read for the entry `(i, j)` and for the entry `(j, i)`. -/
def toMat3 (a : SymMat3 K) : Mat3 K :=
  ⟨a.m11, a.m21, a.m31, a.m21, a.m22, a.m32, a.m31, a.m32, a.m33⟩

end SymMat3

namespace align

/-- The principal-axis rotation `Rx(θ) = [[1, 0, 0], [0, cos θ, sin θ],
[0, -sin θ, cos θ]]` as `rotateAroundGlobalX` and `rotateAroundLocalX` build it. -/
noncomputable def Rx (radians : ℝ) : Mat3 ℝ :=
  ⟨1, 0, 0,
   0, Real.cos radians, Real.sin radians,
   0, -Real.sin radians, Real.cos radians⟩

/-- The principal-axis rotation `Ry(θ) = [[cos θ, 0, -sin θ], [0, 1, 0],
[sin θ, 0, cos θ]]` as `rotateAroundGlobalY` and `rotateAroundLocalY` build it. -/
noncomputable def Ry (radians : ℝ) : Mat3 ℝ :=
  ⟨Real.cos radians, 0, -Real.sin radians,
   0, 1, 0,
   Real.sin radians, 0, Real.cos radians⟩

/-- The ordered product `rot · toMatrix(d₁) · … · toMatrix(d_k)` that the
statement `rot *= toMatrix(dOmega)` builds over the passes of `diffRot`. -/
noncomputable def applyCorrections (rot : Mat3 ℝ) (ds : List (Vec3 ℝ)) : Mat3 ℝ :=
  ds.foldl (fun r d => r.mul (toMatrix d)) rot

/-- The corrections `ds` are the ones the loop of `diffRot` applies in turn
when it starts from the accumulated rotation `rot`: each is solved from the
current vectors moved by the inverse of the rotation accumulated so far, and
reaches the tolerance. -/
def CorrectionChain (current nominal : List (Vec3 ℝ)) (I : SymMat3 ℝ) :
    Mat3 ℝ → List (Vec3 ℝ) → Prop
  | _, [] => True
  | rot, d :: ds =>
    solveStep I nominal (current.map rot.multiplyInverse) = some d ∧
    tolerance ≤ d.normsq ∧
    CorrectionChain current nominal I (rot.mul (toMatrix d)) ds

/-- All points of the list lie on one line through the origin: they are
multiples of one non-zero direction. -/
def OnLineThroughOrigin (l : List (Vec3 ℝ)) : Prop :=
  ∃ d : Vec3 ℝ, d ≠ Vec3.zero ∧ ∀ r ∈ l, ∃ t : ℝ, r = ⟨t * d.x, t * d.y, t * d.z⟩

/-- The fixed matrix `[[0, 0, 1], [0, 1, 0], [-1, 0, 0]]`. -/
def lockedDown : Mat3 ℝ := ⟨0, 0, 1, 0, 1, 0, -1, 0, 0⟩

/-- The fixed matrix `[[0, 0, -1], [0, -1, 0], [-1, 0, 0]]`. -/
def lockedBack : Mat3 ℝ := ⟨0, 0, -1, 0, -1, 0, -1, 0, 0⟩

/-- Every zero entry is `+0.0`. -/
def posZeros : Mat3 Bool := ⟨false, false, false, false, false, false, false, false, false⟩

/-- The entry `yy` is `-0.0` when it is zero; every other zero entry is `+0.0`. -/
def negZeroYY : Mat3 Bool := ⟨false, false, false, false, true, false, false, false, false⟩

/-- A proper rotation with `zx = -1` other than `lockedDown`. -/
def gimbalDown : Mat3 ℝ := ⟨0, 1, 0, 0, 0, -1, -1, 0, 0⟩

/-- A proper rotation with `zx = 1`. -/
def gimbalUp : Mat3 ℝ := ⟨0, 1, 0, 0, 0, 1, 1, 0, 0⟩

end align

namespace Alignable

variable {K : Type}

/-- The data members of an `Alignable` that the constructor and the member
functions of `Alignable.cc` name; a pointer is the address it holds, or `none`
when it is null. -/
structure Fields (K : Type) where
  theMisalignmentActive : Bool
  theDetId : Nat
  theAlignmentParameters : Option Nat
  theMother : Option Nat
  theSurvey : Option Nat
  theDisplacement : Vec3 K
  theRotation : Mat3 K

/-- The function `Alignable::addDisplacement`: `theDisplacement += displacement`. -/
def addDisplacement [Add K] (displacement : Vec3 K) (a : Fields K) : Fields K :=
  { a with theDisplacement := a.theDisplacement.add displacement }

/-- The function `Alignable::addRotation`: `theRotation *= rotation`. -/
def addRotation [Add K] [Mul K] (rotation : Mat3 K) (a : Fields K) : Fields K :=
  { a with theRotation := a.theRotation.mul rotation }

/-- The function `Alignable::rotateInLocalFrame`.  The pure virtual
`rotateInGlobalFrame` and the map `surface().toGlobal` of the node's surface
are declared outside these sources and are parameters. -/
def rotateInLocalFrame (toGlobal : Fields K → Mat3 K → Mat3 K)
    (rotateInGlobalFrame : Mat3 K → Fields K → Fields K)
    (rotation : Mat3 K) (a : Fields K) : Fields K :=
  rotateInGlobalFrame (toGlobal a rotation) a

/-- The function `Alignable::rotateAroundGlobalX`; the pure virtual
`rotateInGlobalFrame` is a parameter. -/
noncomputable def rotateAroundGlobalX (rotateInGlobalFrame : Mat3 ℝ → Fields ℝ → Fields ℝ)
    (radians : ℝ) (a : Fields ℝ) : Fields ℝ :=
  rotateInGlobalFrame (align.Rx radians) a

/-- The function `Alignable::rotateAroundLocalX`. -/
noncomputable def rotateAroundLocalX (toGlobal : Fields ℝ → Mat3 ℝ → Mat3 ℝ)
    (rotateInGlobalFrame : Mat3 ℝ → Fields ℝ → Fields ℝ)
    (radians : ℝ) (a : Fields ℝ) : Fields ℝ :=
  rotateInLocalFrame toGlobal rotateInGlobalFrame (align.Rx radians) a

/-- The function `Alignable::rotateAroundGlobalY`. -/
noncomputable def rotateAroundGlobalY (rotateInGlobalFrame : Mat3 ℝ → Fields ℝ → Fields ℝ)
    (radians : ℝ) (a : Fields ℝ) : Fields ℝ :=
  rotateInGlobalFrame (align.Ry radians) a

/-- The function `Alignable::rotateAroundLocalY`. -/
noncomputable def rotateAroundLocalY (toGlobal : Fields ℝ → Mat3 ℝ → Mat3 ℝ)
    (rotateInGlobalFrame : Mat3 ℝ → Fields ℝ → Fields ℝ)
    (radians : ℝ) (a : Fields ℝ) : Fields ℝ :=
  rotateInLocalFrame toGlobal rotateInGlobalFrame (align.Ry radians) a

/-- The function `Alignable::rotateAroundGlobalZ`. -/
noncomputable def rotateAroundGlobalZ (rotateInGlobalFrame : Mat3 ℝ → Fields ℝ → Fields ℝ)
    (radians : ℝ) (a : Fields ℝ) : Fields ℝ :=
  rotateInGlobalFrame (align.Rz radians) a

/-- The function `Alignable::rotateAroundLocalZ`. -/
noncomputable def rotateAroundLocalZ (toGlobal : Fields ℝ → Mat3 ℝ → Mat3 ℝ)
    (rotateInGlobalFrame : Mat3 ℝ → Fields ℝ → Fields ℝ)
    (radians : ℝ) (a : Fields ℝ) : Fields ℝ :=
  rotateInLocalFrame toGlobal rotateInGlobalFrame (align.Rz radians) a

/-- A freshly constructed node (`Alignable::Alignable()`), with no
displacement and the identity as accumulated rotation. -/
def fresh : Fields ℝ :=
  ⟨true, 0, none, none, none, ⟨0, 0, 0⟩, Mat3.one⟩

end Alignable

/-! ### `AlignSetup` -/

/-- The class template `AlignSetup<Type>`: its only data member `theStore`, a
`std::map<std::string, Type>`, as the list of its entries in key order. -/
structure AlignSetup (T : Type) where
  theStore : List (String × T)

namespace AlignSetup

variable {T : Type}

/-- The lookup `theStore.find(name)` of `std::map`: the value stored under
`name`, if there is one. -/
def lookup (s : AlignSetup T) (name : String) : Option T :=
  s.theStore.lookup name

/-- The insertion `std::map` makes for a key it does not hold: the entry is
put before the first entry of greater key. -/
def insertEntry (name : String) (v : T) : List (String × T) → List (String × T)
  | [] => [(name, v)]
  | (k, w) :: rest =>
    if name < k then (name, v) :: (k, w) :: rest
    else (k, w) :: insertEntry name v rest

/-- The member function `AlignSetup<Type>::get`: `return theStore[name]`.  The
subscript of `std::map` returns the value under `name` and first inserts a
default-constructed value when there is none.  The result is the value and
the setup after the call. -/
def get [Inhabited T] (s : AlignSetup T) (name : String) : T × AlignSetup T :=
  match s.theStore.lookup name with
  | some v => (v, s)
  | none => (default, ⟨insertEntry name default s.theStore⟩)

/-- The member function `AlignSetup<Type>::find`: the exception it throws when
the name is not found, or else `o->second`; and the setup after the call,
which `find` does not write to. -/
def find (s : AlignSetup T) (name : String) : Except String T × AlignSetup T :=
  match s.theStore.lookup name with
  | none => (.error ("Cannot find an object of name " ++ name ++ " in AlignSetup."), s)
  | some v => (.ok v, s)

/-- A setup holding the numbers 1 and 2 under the names `a` and `c`. -/
def sample : AlignSetup Nat := ⟨[("a", 1), ("c", 2)]⟩

end AlignSetup

/-! ### `AlignableDetOrUnitPtr` -/

/-- An `AlignableDet`, seen through its `Alignable` base object. -/
structure AlignableDet where
  base : Alignable

/-- An `AlignableDetUnit`, seen through its `Alignable` base object. -/
structure AlignableDetUnit where
  base : Alignable

/-- The class `AlignableDetOrUnitPtr`: its two pointers, `none` when null. -/
structure AlignableDetOrUnitPtr where
  theAliDet : Option AlignableDet
  theAliDetUnit : Option AlignableDetUnit

namespace AlignableDetOrUnitPtr

/-- The conversion `AlignableDetOrUnitPtr::operator Alignable* ()`; converting
an `AlignableDet*` or an `AlignableDetUnit*` to `Alignable*` keeps the node. -/
def toAlignable (p : AlignableDetOrUnitPtr) : Option Alignable :=
  match p.theAliDet with
  | some det => some det.base
  | none => p.theAliDetUnit.map AlignableDetUnit.base

/-- The conversion `AlignableDetOrUnitPtr::operator const Alignable* () const`. -/
def toAlignableConst (p : AlignableDetOrUnitPtr) : Option Alignable :=
  match p.theAliDet with
  | some det => some det.base
  | none => p.theAliDetUnit.map AlignableDetUnit.base

end AlignableDetOrUnitPtr

/-! ## Properties of the composite node -/

namespace Alignable

/-- Induction over a tree: a property holds of every node as soon as it
passes from the components of a node to the node. -/
theorem induct_on {P : Alignable → Prop}
    (h : ∀ d p comps, (∀ c ∈ comps, P c) → P (mk d p comps)) : ∀ a, P a := by
  intro a
  exact @Alignable.rec P (fun l => ∀ c ∈ l, P c)
    (fun d p comps ih => h d p comps ih)
    (fun c hc => by cases hc)
    (fun hd tl h1 h2 c hc => by
      rcases List.mem_cons.mp hc with rfl | hc
      · exact h1
      · exact h2 c hc) a

theorem childYield_eq (c : Alignable) :
    childYield c = if c.alignmentParameters then [c] else foundOf c := rfl

theorem firstCompsLoop_of_children (comps : List Alignable)
    (hc : ∀ c ∈ comps, ∀ l, firstCompsWithParams c l = (flagOf c, l ++ foundOf c)) :
    ∀ ic has l, firstCompsLoop comps ⟨ic, has, false, l⟩ =
      ⟨ic && comps.all okBelow && comps.all (fun c => contributes c == has),
        has || comps.any contributes, false, l ++ comps.flatMap childYield⟩ := by
  induction comps with
  | nil => intro ic has l; simp [firstCompsLoop]
  | cons c rest ih =>
    intro ic has l
    have hrest := ih (fun c hc2 => hc c (List.mem_cons_of_mem _ hc2))
    have hcc := hc c (List.mem_cons_self _ _)
    rw [firstCompsLoop]
    by_cases hp : c.alignmentParameters = true
    · simp only [hp, if_true]
      rw [hrest]
      cases has <;> cases ic <;> simp [contributes, okBelow, childYield_eq, hp]
    · simp only [hp, if_false, hcc]
      simp only [Bool.not_eq_true] at hp
      by_cases hf : (foundOf c).length = 0
      · have hnil : foundOf c = [] := List.length_eq_zero.mp hf
        cases has <;> cases ic <;> cases hfl : flagOf c <;>
          simp [hrest, contributes, okBelow, childYield_eq, hp, hnil, hfl]
      · have hb : ((foundOf c).length != 0) = true := by simpa using hf
        cases has <;> cases ic <;> cases hfl : flagOf c <;>
          simp [hrest, contributes, okBelow, childYield_eq, hp, hf, hb, hfl]


theorem firstCompsLoop_init (comps : List Alignable)
    (hc : ∀ c ∈ comps, ∀ l, firstCompsWithParams c l = (flagOf c, l ++ foundOf c))
    (l : List Alignable) :
    firstCompsLoop comps ⟨true, false, true, l⟩ =
      ⟨comps.all okBelow && (comps.all contributes || comps.all (fun c => !contributes c)),
        comps.any contributes, comps.isEmpty, l ++ comps.flatMap childYield⟩ := by
  cases comps with
  | nil => simp [firstCompsLoop]
  | cons c rest =>
    have hrest := firstCompsLoop_of_children rest
      (fun c hc2 => hc c (List.mem_cons_of_mem _ hc2))
    have hcc := hc c (List.mem_cons_self _ _)
    rw [firstCompsLoop]
    by_cases hp : c.alignmentParameters = true
    · have hcon : contributes c = true := by simp [contributes, hp]
      have hok : okBelow c = true := by simp [okBelow, hp]
      simp [hp, hrest, hcon, hok, childYield_eq]
    · simp only [hp, if_false, hcc]
      simp only [Bool.not_eq_true] at hp
      have hok : okBelow c = flagOf c := by simp [okBelow, hp]
      by_cases hf : (foundOf c).length = 0
      · have hnil : foundOf c = [] := List.length_eq_zero.mp hf
        have hcon : contributes c = false := by simp [contributes, hp, hnil]
        cases hfl : flagOf c <;>
          simp [hrest, hcon, hok, childYield_eq, hp, hnil, hfl]
      · have hb : ((foundOf c).length != 0) = true := by simpa using hf
        have hcon : contributes c = true := by simp [contributes, hp, hb]
        cases hfl : flagOf c <;>
          simp [hrest, hcon, hok, childYield_eq, hp, hf, hb, hfl]

/-- A call appends to the incoming vector, and neither the flag nor the
appended nodes depend on what the vector held. -/
theorem firstCompsWithParams_eq :
    ∀ a l, firstCompsWithParams a l = (flagOf a, l ++ foundOf a) := by
  intro a
  induction a using induct_on with
  | h d p comps ih =>
    intro l
    have h1 := firstCompsLoop_init comps ih
    simp [flagOf, foundOf, firstCompsWithParams, h1]

theorem flagOf_mk (d : Nat) (p : Bool) (comps : List Alignable) :
    flagOf (mk d p comps) =
      (comps.all okBelow && (comps.all contributes || comps.all (fun c => !contributes c))) := by
  simp [flagOf, firstCompsWithParams,
    firstCompsLoop_init comps (fun c _ => firstCompsWithParams_eq c)]

theorem foundOf_mk (d : Nat) (p : Bool) (comps : List Alignable) :
    foundOf (mk d p comps) = comps.flatMap childYield := by
  simp [foundOf, firstCompsWithParams,
    firstCompsLoop_init comps (fun c _ => firstCompsWithParams_eq c)]


theorem contributesTo_iff (c : Alignable) (l : List Alignable) :
    contributesTo c l ↔ contributes c = true := by
  simp [contributesTo, contributes, firstCompsWithParams_eq c l]

theorem flag_eq_flagOf (c : Alignable) (l : List Alignable) :
    (firstCompsWithParams c l).1 = flagOf c := by
  rw [firstCompsWithParams_eq c l]

/-- The value of the flag in terms of the children. -/
theorem flagOf_true_iff (a : Alignable) :
    flagOf a = true ↔
      (∀ c ∈ a.components, c.alignmentParameters = false → flagOf c = true) ∧
      ((∀ c ∈ a.components, contributes c = true) ∨
        (∀ c ∈ a.components, contributes c = false)) := by
  cases a with
  | mk d p comps =>
    simp only [flagOf_mk, components, Bool.and_eq_true, Bool.or_eq_true, List.all_eq_true,
      okBelow, Bool.not_eq_true', Bool.not_eq_eq_eq_not, Bool.not_true]
    constructor
    · rintro ⟨h1, h2⟩
      refine ⟨fun c hc hp => ?_, h2⟩
      have := h1 c hc
      simpa [hp] using this
    · rintro ⟨h1, h2⟩
      refine ⟨fun c hc => ?_, h2⟩
      cases hp : c.alignmentParameters
      · exact Or.inr (h1 c hc hp)
      · exact Or.inl rfl

/-- Claim C4: `firstCompsWithParams` returns true exactly when every recursive
call it makes on a child without a parameter block returns true and either
every child contributed at least one node to the output list or no child
contributed any.  Neither the flag of a call nor whether it contributed
depends on what the list held when the call was made.  A node with a left
child that owns a block and a right child that contributes nothing returns
false, and the output list still receives the left child. -/
theorem firstCompsWithParams_true_iff (a : Alignable) (paramComps : List Alignable) :
    ((firstCompsWithParams a paramComps).1 = true ↔
      (∀ c ∈ a.components, c.alignmentParameters = false →
          ∀ l, (firstCompsWithParams c l).1 = true) ∧
      ((∀ c ∈ a.components, ∀ l, contributesTo c l) ∨
        (∀ c ∈ a.components, ∀ l, ¬ contributesTo c l))) ∧
    (∀ (c : Alignable) (l l' : List Alignable),
      (firstCompsWithParams c l).1 = (firstCompsWithParams c l').1 ∧
      (contributesTo c l ↔ contributesTo c l')) ∧
    (∀ d p left right, left.alignmentParameters = true →
      right.alignmentParameters = false → ¬ contributesTo right (paramComps ++ [left]) →
      firstCompsWithParams (mk d p [left, right]) paramComps = (false, paramComps ++ [left])) := by
  refine ⟨?_, ?_, ?_⟩
  · simp only [flag_eq_flagOf, contributesTo_iff, forall_const, Bool.not_eq_true]
    exact flagOf_true_iff a
  · intro c l l'
    simp [flag_eq_flagOf, contributesTo_iff]
  · intro d p left right hl hr hn
    rw [contributesTo_iff] at hn
    have hcl : contributes left = true := by simp [contributes, hl]
    have hfr : foundOf right = [] := by
      simp only [contributes, hr, Bool.false_or, bne_iff_ne, ne_eq, Bool.not_eq_true,
        Decidable.not_not] at hn
      simpa using hn
    rw [firstCompsWithParams_eq, flagOf_mk, foundOf_mk]
    simp only [Bool.not_eq_true] at hn
    simp [hcl, hn, childYield_eq, hl, hr, hfr]


/-- Below a covered node nothing passes the filter. -/
theorem covered_filter_nil :
    ∀ a, ((descendantsCovered a true).filter
      (fun nc => nc.1.alignmentParameters && !nc.2)) = [] := by
  intro a
  induction a using induct_on with
  | h d p comps ih =>
    rw [descendantsCovered]
    induction comps with
    | nil => simp [descendantsCoveredList]
    | cons c rest ihl =>
      have h1 := ih c (List.mem_cons_self _ _)
      have h2 := ihl (fun c hc => ih c (List.mem_cons_of_mem _ hc))
      simp [descendantsCoveredList, h1, h2]

theorem firstParamDescendants_eq :
    ∀ a, firstParamDescendants a = a.components.flatMap childYield := by
  intro a
  induction a using induct_on with
  | h d p comps ih =>
    simp only [firstParamDescendants, descendantsCovered, components]
    induction comps with
    | nil => simp [descendantsCoveredList]
    | cons c rest ihl =>
      have h1 := ih c (List.mem_cons_self _ _)
      have h2 := ihl (fun c hc => ih c (List.mem_cons_of_mem _ hc))
      have hy : childYield c = if c.alignmentParameters then [c] else foundOf c := rfl
      have hf : foundOf c = c.components.flatMap childYield := by
        cases c with
        | mk d' p' cs => rw [foundOf_mk]; rfl
      simp only [firstParamDescendants] at h1
      cases hp : c.alignmentParameters
      · simp [descendantsCoveredList, hp, h1, h2, hy, hf]
      · simp [descendantsCoveredList, hp, h2, hy, covered_filter_nil]

/-- Claim C5: `firstCompsWithParams` keeps the elements of the incoming list
and appends, in child order, for each child either the child itself when it
owns a parameter block or else the nodes the recursive call on that child
yields.  The appended nodes are exactly the proper descendants that own a
parameter block and have no parameter-owning ancestor strictly below the
called node, in depth-first left-to-right order; the statement does not
depend on the returned flag. -/
theorem firstCompsWithParams_appends (a : Alignable) (paramComps : List Alignable) :
    (firstCompsWithParams a paramComps).2 =
        paramComps ++ a.components.flatMap childYield ∧
    (∀ (c : Alignable) (l : List Alignable),
      (firstCompsWithParams c l).2 = l ++ (firstCompsWithParams c []).2) ∧
    (firstCompsWithParams a paramComps).2 = paramComps ++ firstParamDescendants a := by
  have h : (firstCompsWithParams a paramComps).2 =
      paramComps ++ a.components.flatMap childYield := by
    rw [firstCompsWithParams_eq]
    cases a with
    | mk d p comps => rw [foundOf_mk]; rfl
  refine ⟨h, ?_, ?_⟩
  · intro c l
    rw [firstCompsWithParams_eq c l]; rfl
  · rw [h, firstParamDescendants_eq]

/-- Claim C9: `firstCompsWithParams` returns false whenever a recursive call it
makes on one of its children returns false, or some child contributed
parameter-bearing nodes to the output list while a strictly earlier sibling
that is not the very first child contributed none. -/
theorem firstCompsWithParams_false_of (a : Alignable) (paramComps : List Alignable)
    (h : (∃ c ∈ a.components, c.alignmentParameters = false ∧
            ∃ l, (firstCompsWithParams c l).1 = false) ∨
         (∃ i j ci cj, a.components[i]? = some ci ∧ a.components[j]? = some cj ∧
            0 < i ∧ i < j ∧ (∃ l, ¬ contributesTo ci l) ∧ (∃ l, contributesTo cj l))) :
    (firstCompsWithParams a paramComps).1 = false := by
  rw [flag_eq_flagOf, ← Bool.not_eq_true, flagOf_true_iff]
  rintro ⟨h1, h2⟩
  rcases h with ⟨c, hc, hp, l, hl⟩ | ⟨i, j, ci, cj, hi, hj, _, _, ⟨l, hl⟩, ⟨l', hl'⟩⟩
  · rw [flag_eq_flagOf] at hl
    have := h1 c hc hp
    rw [hl] at this
    exact Bool.false_ne_true this
  · rw [contributesTo_iff] at hl hl'
    have hci : ci ∈ a.components := List.getElem?_mem hi
    have hcj : cj ∈ a.components := List.getElem?_mem hj
    rcases h2 with h2 | h2
    · exact hl (h2 ci hci)
    · rw [h2 cj hcj] at hl'
      exact Bool.false_ne_true hl'

theorem properDescendants_leaf (a : Alignable) (h : a.components = []) :
    properDescendants a = [] := by
  cases a with
  | mk d p comps =>
    simp only [components] at h
    subst h
    simp [properDescendants, descendantsOfList]

theorem filter_descendantsOfList (comps : List Alignable) :
    (descendantsOfList comps).filter isLeaf = comps.flatMap leavesOf := by
  induction comps with
  | nil => simp [descendantsOfList]
  | cons c rest ih =>
    rw [descendantsOfList]
    by_cases hc : c.components = []
    · have hl : isLeaf c = true := by simp [isLeaf, hc]
      simp [List.filter_cons, hl, properDescendants_leaf c hc, ih, leavesOf, hc]
    · have hl : isLeaf c = false := by simp [isLeaf, hc]
      have hpos : c.components.length > 0 := List.length_pos.mpr hc
      simp [List.filter_cons, hl, ih, leavesOf, hpos, leafDescendants]

theorem leafDescendants_eq (a : Alignable) :
    leafDescendants a = a.components.flatMap leavesOf := by
  cases a with
  | mk d p comps =>
    simp [leafDescendants, properDescendants, components, filter_descendantsOfList]

theorem deepComponentsLoop_eq (comps : List Alignable)
    (hc : ∀ c ∈ comps, ∀ r, deepComponents c r = r ++ leavesOf c) :
    ∀ result, deepComponentsLoop comps result = result ++ comps.flatMap leavesOf := by
  induction comps with
  | nil => intro r; simp [deepComponentsLoop]
  | cons c rest ih =>
    intro r
    rw [deepComponentsLoop, hc c (List.mem_cons_self _ _),
      ih (fun c h => hc c (List.mem_cons_of_mem _ h))]
    simp

theorem deepComponents_append :
    ∀ a result, deepComponents a result = result ++ leavesOf a := by
  intro a
  induction a using induct_on with
  | h d p comps ih =>
    intro result
    rw [deepComponents]
    by_cases hpos : comps.length > 0
    · simp only [hpos, if_true]
      rw [deepComponentsLoop_eq comps ih, leavesOf, leafDescendants_eq]
      simp [components, hpos]
    · simp [hpos, leavesOf, components]

theorem deepComponentsConstLoop_eq (comps : List Alignable)
    (hc : ∀ c ∈ comps, ∀ r, deepComponentsConst c r = deepComponents c r) :
    ∀ result, deepComponentsConstLoop comps result = deepComponentsLoop comps result := by
  induction comps with
  | nil => intro r; simp [deepComponentsLoop, deepComponentsConstLoop]
  | cons c rest ih =>
    intro r
    rw [deepComponentsLoop, deepComponentsConstLoop, hc c (List.mem_cons_self _ _),
      ih (fun c h => hc c (List.mem_cons_of_mem _ h))]

theorem deepComponentsConst_eq :
    ∀ a result, deepComponentsConst a result = deepComponents a result := by
  intro a
  induction a using induct_on with
  | h d p comps ih =>
    intro result
    rw [deepComponents, deepComponentsConst, deepComponentsConstLoop_eq comps ih]

/-- Claim C6: `deepComponents` called with an empty result yields the leaf
descendants of the node in depth-first left-to-right order, and the
one-element sequence holding the node itself when the node is a leaf; with a
non-empty result the same sequence is appended after the existing elements;
the const overload and the mutable overload produce the same sequence. -/
theorem deepComponents_leaves (a : Alignable) (result : List Alignable) :
    (a.components ≠ [] → deepComponents a [] = leafDescendants a) ∧
    (a.components = [] → deepComponents a [] = [a]) ∧
    deepComponents a result = result ++ deepComponents a [] ∧
    deepComponentsConst a result = deepComponents a result := by
  refine ⟨fun h => ?_, fun h => ?_, ?_, deepComponentsConst_eq a result⟩
  · have hpos : a.components.length > 0 := List.length_pos.mpr h
    simp [deepComponents_append, leavesOf, hpos]
  · simp [deepComponents_append, leavesOf, h]
  · simp [deepComponents_append]

/-- The middle node of the three-level tree returns false and the output
list still receives its left child (claim C4 at `mixedNode`). -/
theorem firstCompsWithParams_true_iff_witness :
    firstCompsWithParams mixedNode [] = (false, [leaf 2 true]) ∧
    (firstCompsWithParams mixedTree []).1 = false :=
  ⟨(firstCompsWithParams_true_iff mixedNode []).2.2 1 false (leaf 2 true) (leaf 3 false)
      rfl rfl (by unfold contributesTo; decide),
    by
      have h := (firstCompsWithParams_true_iff mixedTree []).1
      rw [← Bool.not_eq_true]
      intro ht
      have h2 := (h.mp ht).1 mixedNode (List.mem_singleton.mpr rfl) rfl []
      exact absurd h2 (by decide)⟩

/-- The appended nodes of `deepTree` are node 4 and node 2 (claim C5 at
`deepTree`, started on a vector that already holds a node). -/
theorem firstCompsWithParams_appends_witness :
    (firstCompsWithParams deepTree [leaf 9 true]).2 =
      [leaf 9 true, leaf 4 true, mk 2 true [leaf 5 false, leaf 6 false]] :=
  ((firstCompsWithParams_appends deepTree [leaf 9 true]).2.2).trans rfl

/-- The third child of `lateNode` contributes while its second child does not,
so the flag is false (claim C9 at `lateNode`). -/
theorem firstCompsWithParams_false_of_witness :
    (firstCompsWithParams lateNode []).1 = false :=
  firstCompsWithParams_false_of lateNode []
    (Or.inr ⟨1, 2, leaf 2 false, leaf 3 true, rfl, rfl, by decide, by decide,
      ⟨[], by unfold contributesTo; decide⟩, ⟨[], Or.inl rfl⟩⟩)

/-- The leaves of `deepTree` in order (claim C6 at `deepTree`). -/
theorem deepComponents_leaves_witness :
    deepComponents deepTree [] = leafDescendants deepTree ∧
    (deepComponents deepTree []).map theDetId = [3, 4, 5, 6] :=
  ⟨(deepComponents_leaves deepTree []).1 (by simp [deepTree, components]), by decide⟩

end Alignable

/-! ## Properties of the transform utilities -/

namespace align

variable {K : Type}

/-! ### `motherPosition` -/

theorem foldl_motherStep [Field K] (l : List (Vec3 K)) (acc : Vec3 K) :
    l.foldl motherStep acc =
      ⟨acc.x + (l.map Vec3.x).sum, acc.y + (l.map Vec3.y).sum, acc.z + (l.map Vec3.z).sum⟩ := by
  induction l generalizing acc with
  | nil => simp
  | cons p l ih =>
    rw [List.foldl_cons, ih]
    simp [motherStep, add_assoc]

theorem motherPosition_eq [LinearOrderedField K] (dauPos : List (Vec3 K)) (h : dauPos ≠ []) :
    motherPosition dauPos =
      numPosition ⟨(dauPos.map Vec3.x).sum * (1 / (dauPos.length : K)),
            (dauPos.map Vec3.y).sum * (1 / (dauPos.length : K)),
            (dauPos.map Vec3.z).sum * (1 / (dauPos.length : K))⟩ := by
  have hl : dauPos.length ≠ 0 := fun h0 => h (List.length_eq_zero.mp h0)
  have hk : (dauPos.length : K) ≠ 0 := by exact_mod_cast hl
  simp [motherPosition, numPosition, Scalar.oneOver, Scalar.scale, hk, foldl_motherStep]

/-- The empty vector: the sums are `0.`, the quotient `1. / 0` is `+∞`, and
every coordinate of the result is `0. * (+∞)`, which is NaN. -/
theorem motherPosition_nil [LinearOrderedField K] :
    motherPosition ([] : List (Vec3 K)) = ⟨.nan, .nan, .nan⟩ := by
  simp [motherPosition, Scalar.oneOver, Scalar.scale]

/-- Claim C10: for a non-empty list of `N` positions `motherPosition` returns
the arithmetic mean, each coordinate being the sum of that coordinate over
the list multiplied by `1/N`; `N ≥ 1` copies of one point `p` give `p`, and
the points `(0,0,0)`, `(2,0,0)` give `(1,0,0)`. -/
theorem motherPosition_mean [LinearOrderedField K] (dauPos : List (Vec3 K))
    (h : dauPos ≠ []) :
    motherPosition dauPos =
      numPosition ⟨(dauPos.map Vec3.x).sum * (1 / (dauPos.length : K)),
            (dauPos.map Vec3.y).sum * (1 / (dauPos.length : K)),
            (dauPos.map Vec3.z).sum * (1 / (dauPos.length : K))⟩ ∧
    (∀ (n : Nat) (p : Vec3 K), 1 ≤ n →
      motherPosition (List.replicate n p) = numPosition p) ∧
    motherPosition [(⟨0, 0, 0⟩ : Vec3 K), ⟨2, 0, 0⟩] = numPosition ⟨1, 0, 0⟩ := by
  refine ⟨motherPosition_eq dauPos h, ?_, ?_⟩
  · intro n p hn
    have hne : List.replicate n p ≠ [] := by
      intro h0
      have := congrArg List.length h0
      simp at this
      omega
    have hn0 : (n : K) ≠ 0 := by
      have : n ≠ 0 := by omega
      exact_mod_cast this
    rw [motherPosition_eq _ hne]
    simp only [List.map_replicate, List.sum_replicate, List.length_replicate, nsmul_eq_mul]
    congr 1
    ext <;> field_simp
  · rw [motherPosition_eq _ (by simp)]
    congr 1
    ext <;> norm_num

/-- The mean of three rational points (claim C10 at a concrete list). -/
theorem motherPosition_mean_witness :
    motherPosition [(⟨1, 2, 3⟩ : Vec3 ℚ), ⟨3, 4, 7⟩, ⟨5, 0, 2⟩] = numPosition ⟨3, 2, 4⟩ := by
  have h := (motherPosition_mean [(⟨1, 2, 3⟩ : Vec3 ℚ), ⟨3, 4, 7⟩, ⟨5, 0, 2⟩] (by simp)).1
  rw [h]
  congr 1
  ext <;> norm_num

/-! ### `diffRot`: general facts -/

theorem one_mul_mat (m : Mat3 ℝ) : Mat3.one.mul m = m := by
  ext <;> simp [Mat3.mul, Mat3.one]

theorem multiplyInverse_one (v : Vec3 ℝ) : (Mat3.one : Mat3 ℝ).multiplyInverse v = v := by
  ext <;> simp [Mat3.multiplyInverse, Mat3.one]

theorem map_multiplyInverse_one (l : List (Vec3 ℝ)) :
    l.map (Mat3.one : Mat3 ℝ).multiplyInverse = l := by
  have : (Mat3.one : Mat3 ℝ).multiplyInverse = id := funext multiplyInverse_one
  rw [this, List.map_id]

/-- When `current` and `nominal` have the same length the moving loop
rewrites every entry of `rotated`. -/
theorem moveCurrent_eq (nominal current rotated : List (Vec3 ℝ)) (rot : Mat3 ℝ)
    (hc : current.length = nominal.length) (hr : rotated.length = nominal.length) :
    moveCurrent nominal.length rot current rotated = current.map rot.multiplyInverse := by
  simp [moveCurrent, ← hc, List.drop_eq_nil_of_le (le_of_eq (hr.trans hc.symm))]

theorem tolerance_pos : 0 < tolerance := by
  unfold tolerance; norm_num

/-- A pass whose correction is below the tolerance ends the loop with the
rotation accumulated so far. -/
theorem diffRotLoop_break (current nominal rotated : List (Vec3 ℝ)) (I : SymMat3 ℝ)
    (fuel : Nat) (rot : Mat3 ℝ) (dOmega : Vec3 ℝ)
    (hs : solveStep I nominal rotated = some dOmega) (hn : dOmega.normsq < tolerance) :
    diffRotLoop current nominal I (fuel + 1) rot rotated = some rot := by
  simp [diffRotLoop, hs, hn]

/-- A pass whose correction reaches the tolerance applies it and goes on. -/
theorem diffRotLoop_continue (current nominal rotated : List (Vec3 ℝ)) (I : SymMat3 ℝ)
    (fuel : Nat) (rot : Mat3 ℝ) (dOmega : Vec3 ℝ)
    (hs : solveStep I nominal rotated = some dOmega) (hn : ¬ dOmega.normsq < tolerance) :
    diffRotLoop current nominal I (fuel + 1) rot rotated =
      diffRotLoop current nominal I fuel (rot.mul (toMatrix dOmega))
        (moveCurrent nominal.length (rot.mul (toMatrix dOmega)) current rotated) := by
  simp [diffRotLoop, hs, hn]

/-- Whatever the loop returns passes the convergence test: the correction
solved from the current vectors moved by the returned rotation is below the
tolerance. -/
theorem diffRotLoop_post (current nominal : List (Vec3 ℝ)) (I : SymMat3 ℝ)
    (hc : current.length = nominal.length) (R : Mat3 ℝ) :
    ∀ (fuel : Nat) (rot : Mat3 ℝ),
      diffRotLoop current nominal I fuel rot (current.map rot.multiplyInverse) = some R →
      ∃ dOmega, solveStep I nominal (current.map R.multiplyInverse) = some dOmega ∧
        dOmega.normsq < tolerance := by
  intro fuel
  induction fuel with
  | zero => intro rot h; simp [diffRotLoop] at h
  | succ n ih =>
    intro rot h
    cases hs : solveStep I nominal (current.map rot.multiplyInverse) with
    | none => simp [diffRotLoop, hs] at h
    | some dOmega =>
      by_cases hn : dOmega.normsq < tolerance
      · rw [diffRotLoop_break _ _ _ _ _ _ _ hs hn] at h
        cases h
        exact ⟨dOmega, hs, hn⟩
      · rw [diffRotLoop_continue _ _ _ _ _ _ _ hs hn,
          moveCurrent_eq _ _ _ _ hc (by simp [hc])] at h
        exact ih _ h

/-- The cross products sum to the accumulator when every moved vector is a
multiple of its nominal vector. -/
theorem foldl_rhsStep_parallel (k : ℝ) (l : List (Vec3 ℝ)) (acc : Vec3 ℝ) :
    ((l.map (fun r => (⟨k * r.x, k * r.y, k * r.z⟩ : Vec3 ℝ))).zip l).foldl rhsStep acc = acc := by
  induction l generalizing acc with
  | nil => simp
  | cons r l ih =>
    simp only [List.map_cons, List.zip_cons_cons, List.foldl_cons]
    have : rhsStep acc (⟨k * r.x, k * r.y, k * r.z⟩, r) = acc := by
      ext <;> simp [rhsStep] <;> ring
    rw [this, ih]

theorem rhsSum_self (P : List (Vec3 ℝ)) : rhsSum P P = Vec3.zero := by
  have h := foldl_rhsStep_parallel 1 P Vec3.zero
  simpa [rhsSum] using h

theorem rhsSum_neg (P : List (Vec3 ℝ)) : rhsSum (P.map Vec3.neg) P = Vec3.zero := by
  have h := foldl_rhsStep_parallel (-1) P Vec3.zero
  have e : (fun r : Vec3 ℝ => (⟨-1 * r.x, -1 * r.y, -1 * r.z⟩ : Vec3 ℝ)) = Vec3.neg := by
    funext r; simp [Vec3.neg]
  rw [e] at h
  exact h

theorem solve_zero (I : SymMat3 ℝ) (h : I.det ≠ 0) : solve I Vec3.zero = some Vec3.zero := by
  simp [solve, h, Vec3.zero]

/-- Whatever `solve` returns solves the linear system `I · dOmega = rhs`. -/
theorem solve_sound (I : SymMat3 ℝ) (rhs v : Vec3 ℝ) (h : solve I rhs = some v) :
    I.mulVec v = rhs := by
  by_cases hd : I.det = 0
  · simp [solve, hd] at h
  · simp only [solve, hd, if_false, Option.some.injEq] at h
    subst h
    have hd2 := hd
    simp only [SymMat3.det] at hd2
    ext <;> simp only [SymMat3.mulVec, SymMat3.det] <;> field_simp <;> ring

theorem normsq_zero : (Vec3.zero : Vec3 ℝ).normsq = 0 := by
  simp [Vec3.normsq, Vec3.zero]

/-- A vanishing right-hand side ends `diffRot` in its first pass with the
identity. -/
theorem diffRot_of_rhs_zero (fuel : Nat) (current nominal : List (Vec3 ℝ))
    (hlen : current.length = nominal.length) (hI : (inertia nominal).det ≠ 0)
    (hr : rhsSum current nominal = Vec3.zero) :
    solveStep (inertia nominal) nominal current = some Vec3.zero ∧
    diffRot (fuel + 1) current nominal = some Mat3.one := by
  have hs : solveStep (inertia nominal) nominal current = some Vec3.zero := by
    rw [solveStep, hr, solve_zero _ hI]
  refine ⟨hs, ?_⟩
  rw [diffRot, if_neg (by omega)]
  exact diffRotLoop_break _ _ _ _ _ _ _ hs (by rw [normsq_zero]; exact tolerance_pos)

/-- Claim C3: for a point sequence `P` whose inertia tensor is invertible,
`diffRot(P, P)` returns the identity rotation, and the first solved `dOmega`
is the zero vector, so no correction is applied. -/
theorem diffRot_self (fuel : Nat) (P : List (Vec3 ℝ)) (hI : (inertia P).det ≠ 0) :
    diffRot (fuel + 1) P P = some Mat3.one ∧
    solveStep (inertia P) P P = some Vec3.zero := by
  have h := diffRot_of_rhs_zero fuel P P rfl hI (rhsSum_self P)
  exact ⟨h.2, h.1⟩

/-- Claim C7: for a nominal sequence with an invertible inertia tensor and
every current point the negation of its nominal point, the summed cross
product `rhs` is the zero vector, the first solved correction has squared
norm below the tolerance, and `diffRot` returns the identity rotation. -/
theorem diffRot_negated (fuel : Nat) (nominal : List (Vec3 ℝ))
    (hI : (inertia nominal).det ≠ 0) :
    rhsSum (nominal.map Vec3.neg) nominal = Vec3.zero ∧
    (∃ dOmega, solveStep (inertia nominal) nominal (nominal.map Vec3.neg) = some dOmega ∧
      dOmega.normsq < tolerance) ∧
    diffRot (fuel + 1) (nominal.map Vec3.neg) nominal = some Mat3.one := by
  have h := diffRot_of_rhs_zero fuel (nominal.map Vec3.neg) nominal (by simp) hI
    (rhsSum_neg nominal)
  exact ⟨rhsSum_neg nominal, ⟨Vec3.zero, h.1, by rw [normsq_zero]; exact tolerance_pos⟩, h.2⟩


/-! ### `diffRot` on a cloud turned about the z axis -/

theorem foldl_RzRel (φ : ℝ) (l : List (Vec3 ℝ)) :
    ∀ (accI : SymMat3 ℝ) (accR : Vec3 ℝ), RzRel φ accI accR →
      RzRel φ (l.foldl inertiaStep accI)
        (((l.map (Rz φ).mulVec).zip l).foldl rhsStep accR) := by
  induction l with
  | nil => intro accI accR h; simpa using h
  | cons r l ih =>
    intro accI accR h
    simp only [List.map_cons, List.zip_cons_cons, List.foldl_cons]
    apply ih
    obtain ⟨h1, h2, h3⟩ := h
    refine ⟨?_, ?_, ?_⟩
    · simp only [rhsStep, inertiaStep, Mat3.mulVec, Rz, h1]; ring
    · simp only [rhsStep, inertiaStep, Mat3.mulVec, Rz, h2]; ring
    · simp only [rhsStep, inertiaStep, Mat3.mulVec, Rz, h3]; ring

theorem rhsSum_Rz (φ : ℝ) (nominal : List (Vec3 ℝ)) :
    RzRel φ (inertia nominal) (rhsSum (nominal.map (Rz φ).mulVec) nominal) := by
  apply foldl_RzRel
  simp [RzRel, SymMat3.zero, Vec3.zero]

/-- With `I_zx = I_zy = 0` the correction solved for a cloud turned by `φ`
about the z axis is `(0, 0, sin φ)`. -/
theorem solveStep_Rz (φ : ℝ) (nominal : List (Vec3 ℝ))
    (hI : (inertia nominal).det ≠ 0)
    (h31 : (inertia nominal).m31 = 0) (h32 : (inertia nominal).m32 = 0) :
    solveStep (inertia nominal) nominal (nominal.map (Rz φ).mulVec) =
      some ⟨0, 0, Real.sin φ⟩ := by
  obtain ⟨h1, h2, h3⟩ := rhsSum_Rz φ nominal
  rw [h31, h32] at h1 h2
  have hd : (inertia nominal).det =
      (inertia nominal).m33 * ((inertia nominal).m11 * (inertia nominal).m22 -
        (inertia nominal).m21 * (inertia nominal).m21) := by
    simp only [SymMat3.det, h31, h32]; ring
  have hI2 := hI
  rw [hd] at hI2
  have ha := left_ne_zero_of_mul hI2
  have hb := right_ne_zero_of_mul hI2
  rw [solveStep, solve, if_neg hI]
  simp only [h1, h2, h3, h31, h32, Option.some.injEq]
  rw [hd]
  ext
  · simp
  · simp
  · simp only; field_simp; ring

theorem toMatrix_z (γ : ℝ) : toMatrix ⟨0, 0, γ⟩ = Rz γ := by
  ext <;> simp [toMatrix, Rz]

theorem multiplyInverse_Rz (γ φ : ℝ) (v : Vec3 ℝ) :
    (Rz γ).multiplyInverse ((Rz φ).mulVec v) = (Rz (φ - γ)).mulVec v := by
  ext <;> simp [Rz, Mat3.mulVec, Mat3.multiplyInverse, Real.cos_sub, Real.sin_sub] <;> ring

theorem Rz_pi_mulVec (v : Vec3 ℝ) : (Rz Real.pi).mulVec v = ⟨-v.x, -v.y, v.z⟩ := by
  ext <;> simp [Rz, Mat3.mulVec]

/-- Claim C8, amended: for a nominal cloud with an invertible inertia tensor
whose entries `I_zx = -Σ x·z` and `I_zy = -Σ y·z` vanish, and
`current_j = Rz(π)·nominal_j`, `diffRot(current, nominal)` returns the
identity matrix. -/
theorem diffRot_Rz_pi (fuel : Nat) (nominal : List (Vec3 ℝ))
    (hI : (inertia nominal).det ≠ 0)
    (h31 : (inertia nominal).m31 = 0) (h32 : (inertia nominal).m32 = 0) :
    diffRot (fuel + 1) (nominal.map (Rz Real.pi).mulVec) nominal = some Mat3.one := by
  have hs := solveStep_Rz Real.pi nominal hI h31 h32
  rw [Real.sin_pi] at hs
  rw [diffRot, if_neg (by simp)]
  exact diffRotLoop_break _ _ _ _ _ _ _ hs
    (by simp only [Vec3.normsq]; norm_num; exact tolerance_pos)

theorem inertia_skewCloud : inertia skewCloud = ⟨3, 0, 3, -1, 0, 2⟩ := by
  ext <;> simp [inertia, skewCloud, inertiaStep, SymMat3.zero] <;> norm_num

theorem not_collinear_skewCloud : ¬ Collinear skewCloud := by
  rintro ⟨p, d, h⟩
  obtain ⟨t1, h1⟩ := h ⟨1, 0, 1⟩ (by simp [skewCloud])
  obtain ⟨t2, h2⟩ := h ⟨0, 1, 0⟩ (by simp [skewCloud])
  obtain ⟨t3, h3⟩ := h ⟨0, 0, 1⟩ (by simp [skewCloud])
  simp only [Vec3.mk.injEq] at h1 h2 h3
  obtain ⟨h1x, h1y, h1z⟩ := h1
  obtain ⟨h2x, h2y, h2z⟩ := h2
  obtain ⟨h3x, h3y, h3z⟩ := h3
  have e1 : (t1 - t3) * d.x = 1 := by linear_combination h3x - h1x
  have e2 : (t1 - t3) * d.y = 0 := by linear_combination h3y - h1y
  have e3 : (t2 - t3) * d.y = 1 := by linear_combination h3y - h2y
  have hne : t1 - t3 ≠ 0 := by
    intro h0; rw [h0] at e1; simp at e1
  have hdy : d.y = 0 := by
    rcases mul_eq_zero.mp e2 with h0 | h0
    · exact absurd h0 hne
    · exact h0
  rw [hdy] at e3
  simp at e3

/-- The correction solved in the first pass for the skew cloud turned by `φ`
about the z axis. -/
theorem solveStep_skewCloud (φ : ℝ) :
    solveStep (inertia skewCloud) skewCloud (skewCloud.map (Rz φ).mulVec) =
      some ⟨0, (1 - Real.cos φ) / 3, Real.sin φ⟩ := by
  obtain ⟨h1, h2, h3⟩ := rhsSum_Rz φ skewCloud
  rw [inertia_skewCloud] at h1 h2 h3
  rw [solveStep, inertia_skewCloud, solve]
  have hd : (⟨3, 0, 3, -1, 0, 2⟩ : SymMat3 ℝ).det = 15 := by
    simp [SymMat3.det]; norm_num
  rw [hd]
  simp only [h1, h2, h3]
  norm_num
  refine ⟨by ring, by ring, by ring⟩

/-- Claim C8 fails on the skew cloud: its three points are not collinear, and
`diffRot` never returns the identity for `current_j = Rz(π)·nominal_j`,
because the first correction `(0, 2/3, 0)` is not below the tolerance. -/
theorem skewCloud_refutes_pi :
    3 ≤ skewCloud.length ∧ ¬ Collinear skewCloud ∧
    ¬ ∃ fuel, diffRot fuel (skewCloud.map (Rz Real.pi).mulVec) skewCloud = some Mat3.one := by
  refine ⟨by simp [skewCloud], not_collinear_skewCloud, ?_⟩
  rintro ⟨fuel, h⟩
  rw [diffRot, if_neg (by simp)] at h
  have hm := map_multiplyInverse_one (skewCloud.map (Rz Real.pi).mulVec)
  rw [← hm] at h
  nth_rewrite 1 [hm] at h
  obtain ⟨dOmega, hs, hn⟩ := diffRotLoop_post _ _ _ (by simp) _ _ _ h
  rw [hm, solveStep_skewCloud] at hs
  cases hs
  simp only [Vec3.normsq, Real.cos_pi, Real.sin_pi, tolerance] at hn
  norm_num at hn


/-! ### The round trip `toMatrix ∘ toAngles` -/

/-- The entrywise equations of a proper rotation: the six scalar products of
its rows and the determinant. -/
theorem properRotation_rows {a : Mat3 ℝ} (h : a.IsProperRotation) :
    a.xx * a.xx + a.xy * a.xy + a.xz * a.xz = 1 ∧
    a.xx * a.yx + a.xy * a.yy + a.xz * a.yz = 0 ∧
    a.xx * a.zx + a.xy * a.zy + a.xz * a.zz = 0 ∧
    a.yx * a.yx + a.yy * a.yy + a.yz * a.yz = 1 ∧
    a.yx * a.zx + a.yy * a.zy + a.yz * a.zz = 0 ∧
    a.zx * a.zx + a.zy * a.zy + a.zz * a.zz = 1 ∧
    a.xx * (a.yy * a.zz - a.yz * a.zy) - a.xy * (a.yx * a.zz - a.yz * a.zx)
      + a.xz * (a.yx * a.zy - a.yy * a.zx) = 1 := by
  obtain ⟨h1, h2⟩ := h
  simp only [Mat3.mul, Mat3.transpose, Mat3.one, Mat3.mk.injEq] at h1
  obtain ⟨e1, e2, e3, -, e5, e6, -, -, e9⟩ := h1
  exact ⟨e1, e2, e3, e5, e6, e9, h2⟩

/-- Every entry of a proper rotation equals its cofactor. -/
theorem properRotation_cofactors {a : Mat3 ℝ} (h : a.IsProperRotation) :
    a.xx = a.yy * a.zz - a.yz * a.zy ∧
    a.xy = a.yz * a.zx - a.yx * a.zz ∧
    a.xz = a.yx * a.zy - a.yy * a.zx ∧
    a.yx = a.xz * a.zy - a.xy * a.zz ∧
    a.yy = a.xx * a.zz - a.xz * a.zx ∧
    a.yz = a.xy * a.zx - a.xx * a.zy ∧
    a.zx = a.xy * a.yz - a.xz * a.yy ∧
    a.zy = a.xz * a.yx - a.xx * a.yz ∧
    a.zz = a.xx * a.yy - a.xy * a.yx := by
  obtain ⟨exx, exy, exz, eyy, eyz, ezz, hd⟩ := properRotation_rows h
  refine ⟨?_, ?_, ?_, ?_, ?_, ?_, ?_, ?_, ?_⟩
  · linear_combination (a.yy * a.zz - a.yz * a.zy) * exx + (a.xz * a.zy - a.xy * a.zz) * exy
      + (a.xy * a.yz - a.xz * a.yy) * exz - a.xx * hd
  · linear_combination (a.yz * a.zx - a.yx * a.zz) * exx + (a.xx * a.zz - a.xz * a.zx) * exy
      + (a.xz * a.yx - a.xx * a.yz) * exz - a.xy * hd
  · linear_combination (a.yx * a.zy - a.yy * a.zx) * exx + (a.xy * a.zx - a.xx * a.zy) * exy
      + (a.xx * a.yy - a.xy * a.yx) * exz - a.xz * hd
  · linear_combination (a.yy * a.zz - a.yz * a.zy) * exy + (a.xz * a.zy - a.xy * a.zz) * eyy
      + (a.xy * a.yz - a.xz * a.yy) * eyz - a.yx * hd
  · linear_combination (a.yz * a.zx - a.yx * a.zz) * exy + (a.xx * a.zz - a.xz * a.zx) * eyy
      + (a.xz * a.yx - a.xx * a.yz) * eyz - a.yy * hd
  · linear_combination (a.yx * a.zy - a.yy * a.zx) * exy + (a.xy * a.zx - a.xx * a.zy) * eyy
      + (a.xx * a.yy - a.xy * a.yx) * eyz - a.yz * hd
  · linear_combination (a.yy * a.zz - a.yz * a.zy) * exz + (a.xz * a.zy - a.xy * a.zz) * eyz
      + (a.xy * a.yz - a.xz * a.yy) * ezz - a.zx * hd
  · linear_combination (a.yz * a.zx - a.yx * a.zz) * exz + (a.xx * a.zz - a.xz * a.zx) * eyz
      + (a.xz * a.yx - a.xx * a.yz) * ezz - a.zy * hd
  · linear_combination (a.yx * a.zy - a.yy * a.zx) * exz + (a.xy * a.zx - a.xx * a.zy) * eyz
      + (a.xx * a.yy - a.xy * a.yx) * ezz - a.zz * hd

/-- The first column of a proper rotation has unit length. -/
theorem properRotation_col_x {a : Mat3 ℝ} (h : a.IsProperRotation) :
    a.xx * a.xx + a.yx * a.yx + a.zx * a.zx = 1 := by
  obtain ⟨cxx, -, -, cyx, -, -, czx, -, -⟩ := properRotation_cofactors h
  obtain ⟨-, -, -, -, -, -, hd⟩ := properRotation_rows h
  linear_combination a.xx * cxx + a.yx * cyx + a.zx * czx + hd

theorem abs_mk (x y : ℝ) : Complex.abs ⟨x, y⟩ = Real.sqrt (x * x + y * y) := by
  rw [Complex.abs_apply, Complex.normSq_mk]

theorem sin_atan2 (s : ZeroSigns) (y x : ℝ) :
    Real.sin (atan2 s y x) = y / Real.sqrt (x * x + y * y) := by
  by_cases hy : y = 0
  · rw [atan2, if_pos hy, hy, zero_div]
    split_ifs <;> simp
  · rw [atan2, if_neg hy, Complex.sin_arg, abs_mk]

theorem cos_atan2 (s : ZeroSigns) (y x : ℝ) (h : x * x + y * y ≠ 0) :
    Real.cos (atan2 s y x) = x / Real.sqrt (x * x + y * y) := by
  by_cases hy : y = 0
  · have hx : x ≠ 0 := by
      intro h0; apply h; rw [h0, hy]; ring
    have hsq : Real.sqrt (x * x + y * y) = |x| := by
      rw [hy, mul_zero, add_zero, Real.sqrt_mul_self_eq_abs]
    rw [atan2, if_pos hy, hsq]
    rcases lt_or_gt_of_ne hx with hneg | hpos
    · have hc : ¬ (0 < x ∨ (x = 0 ∧ s.xNeg = false)) := by
        rintro (h1 | ⟨h1, -⟩)
        · exact absurd h1 (not_lt.mpr hneg.le)
        · exact hx h1
      rw [if_neg hc, abs_of_neg hneg, div_neg, div_self hx]
      split_ifs <;> simp
    · rw [if_pos (Or.inl hpos), abs_of_pos hpos, div_self hx, Real.cos_zero]
  · have hne : (⟨x, y⟩ : ℂ) ≠ 0 := by
      intro h0
      exact hy (congrArg Complex.im h0)
    rw [atan2, if_neg hy, Complex.cos_arg hne, abs_mk]

/-- Claim C1: for every proper rotation matrix `R` with `|zx| < 1`,
`toMatrix(toAngles(R))` equals `R`, hence `rectify` leaves `R` unchanged;
this holds whatever the signs of the zero entries of `R` are. -/
theorem toMatrix_toAngles (negZero : Mat3 Bool) (R : Mat3 ℝ) (hR : R.IsProperRotation)
    (hzx : |R.zx| < 1) :
    toMatrix (toAngles negZero R) = R ∧ rectify negZero R = R := by
  have main : toMatrix (toAngles negZero R) = R := by
    obtain ⟨-, cxy, cxz, -, cyy, cyz, -, -, -⟩ := properRotation_cofactors hR
    obtain ⟨-, -, -, -, -, ezz, -⟩ := properRotation_rows hR
    have ecol := properRotation_col_x hR
    obtain ⟨hlo, hhi⟩ := abs_lt.mp hzx
    have hk2 : 0 < 1 - R.zx ^ 2 := by nlinarith
    set k := Real.sqrt (1 - R.zx ^ 2) with hk
    have hkpos : 0 < k := Real.sqrt_pos.mpr hk2
    have hksq : k * k = 1 - R.zx ^ 2 := Real.mul_self_sqrt hk2.le
    have hrow : R.zz * R.zz + R.zy * R.zy = 1 - R.zx ^ 2 := by linear_combination ezz
    have hcol : R.xx * R.xx + R.yx * R.yx = 1 - R.zx ^ 2 := by linear_combination ecol
    have hs1 : Real.sin (atan2 ⟨negZero.zy, negZero.zz⟩ R.zy R.zz) = R.zy / k := by
      rw [sin_atan2, hrow]
    have hc1 : Real.cos (atan2 ⟨negZero.zy, negZero.zz⟩ R.zy R.zz) = R.zz / k := by
      rw [cos_atan2 _ _ _ (by rw [hrow]; exact hk2.ne'), hrow]
    have hs3 : Real.sin (atan2 ⟨negZero.yx, negZero.xx⟩ R.yx R.xx) = R.yx / k := by
      rw [sin_atan2, hcol]
    have hc3 : Real.cos (atan2 ⟨negZero.yx, negZero.xx⟩ R.yx R.xx) = R.xx / k := by
      rw [cos_atan2 _ _ _ (by rw [hcol]; exact hk2.ne'), hcol]
    have hs2 : Real.sin (Real.arcsin R.zx) = R.zx := Real.sin_arcsin hlo.le hhi.le
    have hc2 : Real.cos (Real.arcsin R.zx) = k := Real.cos_arcsin R.zx
    have hkne : k ≠ 0 := hkpos.ne'
    have hkk : k * k ≠ 0 := mul_ne_zero hkne hkne
    have kxy : R.xy * (k * k) = -(R.zz * R.yx) - R.zy * R.zx * R.xx := by
      linear_combination R.xy * hksq + cxy + R.zx * cyz
    have kxz : R.xz * (k * k) = R.zy * R.yx - R.zz * R.zx * R.xx := by
      linear_combination R.xz * hksq + cxz - R.zx * cyy
    have kyy : R.yy * (k * k) = R.zz * R.xx - R.zy * R.zx * R.yx := by
      linear_combination R.yy * hksq + cyy - R.zx * cxz
    have kyz : R.yz * (k * k) = -(R.zy * R.xx) - R.zz * R.zx * R.yx := by
      linear_combination R.yz * hksq + cyz + R.zx * cxy
    rw [toAngles, if_pos hzx]
    simp only [toMatrix, Real.sin_neg, Real.cos_neg, hs1, hc1, hs2, hc2, hs3, hc3]
    ext
    · simp only; field_simp
    · simp only; rw [eq_div_of_mul_eq hkk kxy]; ring
    · simp only; rw [eq_div_of_mul_eq hkk kxz]; ring
    · simp only; field_simp
    · simp only; rw [eq_div_of_mul_eq hkk kyy]; ring
    · simp only; rw [eq_div_of_mul_eq hkk kyz]; ring
    · simp only
    · simp only; field_simp
    · simp only; field_simp
  exact ⟨main, main⟩


/-! ### `diffRot` on a cloud turned by 0.01 rad about the z axis -/

theorem sin_hundredth : (0.00999975 : ℝ) ≤ Real.sin 0.01 ∧ Real.sin 0.01 < 0.01 := by
  constructor
  · have h := Real.sin_gt_sub_cube (x := 0.01) (by norm_num) (by norm_num)
    norm_num at h ⊢
    linarith
  · exact Real.sin_lt (by norm_num)

theorem cos_hundredth :
    (0.99995 : ℝ) ≤ Real.cos 0.01 ∧ Real.cos 0.01 ≤ 0.999950001 := by
  have h := Real.cos_bound (x := 0.01) (by rw [abs_of_pos] <;> norm_num)
  rw [abs_of_pos (by norm_num : (0 : ℝ) < 0.01)] at h
  obtain ⟨h1, h2⟩ := abs_le.mp h
  constructor
  · have := Real.one_sub_sq_div_two_le_cos (x := 0.01)
    norm_num at this ⊢
    linarith
  · norm_num at h2 ⊢
    linarith

/-- The angle left after the first correction `sin 0.01`. -/
theorem residual_bounds :
    0 < (0.01 : ℝ) - Real.sin 0.01 ∧ (0.01 : ℝ) - Real.sin 0.01 ≤ 0.00000025 := by
  obtain ⟨h1, h2⟩ := sin_hundredth
  constructor <;> norm_num at h1 h2 ⊢ <;> linarith

theorem sin_residual_bounds :
    0 ≤ Real.sin (0.01 - Real.sin 0.01) ∧
    Real.sin (0.01 - Real.sin 0.01) ≤ 0.00000025 := by
  obtain ⟨h1, h2⟩ := residual_bounds
  constructor
  · apply Real.sin_nonneg_of_nonneg_of_le_pi h1.le
    have := Real.pi_gt_three
    linarith
  · exact (Real.sin_lt h1).le.trans h2

theorem normsq_le_of_abs_le {v : Vec3 ℝ} {a b c : ℝ}
    (hx : |v.x| ≤ a) (hy : |v.y| ≤ b) (hz : |v.z| ≤ c) :
    v.normsq ≤ a * a + b * b + c * c := by
  have h1 : v.x * v.x ≤ a * a := by
    rw [← abs_mul_abs_self v.x]
    exact mul_self_le_mul_self (abs_nonneg _) hx
  have h2 : v.y * v.y ≤ b * b := by
    rw [← abs_mul_abs_self v.y]
    exact mul_self_le_mul_self (abs_nonneg _) hy
  have h3 : v.z * v.z ≤ c * c := by
    rw [← abs_mul_abs_self v.z]
    exact mul_self_le_mul_self (abs_nonneg _) hz
  simp only [Vec3.normsq]
  linarith

/-- The first correction `(·, ·, sin 0.01)` is not below the tolerance. -/
theorem first_normsq_ge (y : ℝ) :
    ¬ (⟨0, y, Real.sin 0.01⟩ : Vec3 ℝ).normsq < tolerance := by
  obtain ⟨h1, -⟩ := sin_hundredth
  have h2 : (0.00999975 : ℝ) * 0.00999975 ≤ Real.sin 0.01 * Real.sin 0.01 :=
    mul_self_le_mul_self (by norm_num) h1
  have h3 : 0 ≤ y * y := mul_self_nonneg y
  simp only [Vec3.normsq, tolerance, not_lt]
  norm_num at h2 ⊢
  linarith

/-- The entries of `Rz(sin 0.01)` are within `1e-6` of those of `Rz(0.01)`. -/
theorem Rz_sin_close : EntriesWithin 1e-6 (Rz (Real.sin 0.01)) (Rz 0.01) := by
  obtain ⟨hs1, hs2⟩ := sin_hundredth
  set s := Real.sin 0.01 with hs
  have hspos : 0 < s := by norm_num at hs1; linarith
  have hsle : s ≤ 1 := by norm_num at hs2; linarith
  -- the sine of `s`
  have hss1 : s - s ^ 3 / 4 < Real.sin s := Real.sin_gt_sub_cube hspos hsle
  have hss2 : Real.sin s < s := Real.sin_lt hspos
  have hs3 : s ^ 3 ≤ 0.000001 := by
    have : s ^ 3 ≤ (0.01 : ℝ) ^ 3 := pow_le_pow_left₀ hspos.le hs2.le 3
    norm_num at this ⊢
    linarith
  have hsin : |Real.sin s - s| ≤ 0.000001 := by
    rw [abs_le]
    constructor <;> norm_num at hs1 hs2 hs3 ⊢ <;> linarith
  -- the cosine of `s`
  have hcs := Real.cos_bound (x := s) (by rw [abs_of_pos hspos]; exact hsle)
  rw [abs_of_pos hspos] at hcs
  obtain ⟨hcs1, hcs2⟩ := abs_le.mp hcs
  obtain ⟨hc1, hc2⟩ := cos_hundredth
  have hs4 : s ^ 4 ≤ 0.00000001 := by
    have : s ^ 4 ≤ (0.01 : ℝ) ^ 4 := pow_le_pow_left₀ hspos.le hs2.le 4
    norm_num at this ⊢
    linarith
  have hs2lo : (0.00999975 : ℝ) ^ 2 ≤ s ^ 2 := pow_le_pow_left₀ (by norm_num) hs1 2
  have hs2hi : s ^ 2 ≤ (0.01 : ℝ) ^ 2 := pow_le_pow_left₀ hspos.le hs2.le 2
  have hcos : |Real.cos s - Real.cos 0.01| ≤ 0.000001 := by
    rw [abs_le]
    constructor <;> norm_num at hc1 hc2 hs4 hs2lo hs2hi hcs1 hcs2 ⊢ <;> linarith
  have hsin2 : |-Real.sin s - -s| ≤ 0.000001 := by
    rw [show -Real.sin s - -s = -(Real.sin s - s) by ring, abs_neg]; exact hsin
  simp only [EntriesWithin, Rz, ← hs, sub_self, abs_zero]
  norm_num
  norm_num at hsin hcos hsin2
  exact ⟨hcos, hsin, hsin2, hcos⟩

/-- Claim C2, amended: for a nominal cloud with an invertible inertia tensor
whose entries `I_zx = -Σ x·z` and `I_zy = -Σ y·z` vanish, and
`current_j = Rz(0.01)·nominal_j`, `diffRot(current, nominal)` breaks in its
second pass and returns `Rz(sin 0.01)`, every entry of which is within `1e-6`
of the corresponding entry of `Rz(0.01)`. -/
theorem diffRot_Rz_hundredth (fuel : Nat) (nominal : List (Vec3 ℝ))
    (hI : (inertia nominal).det ≠ 0)
    (h31 : (inertia nominal).m31 = 0) (h32 : (inertia nominal).m32 = 0) :
    diffRot (fuel + 2) (nominal.map (Rz 0.01).mulVec) nominal = some (Rz (Real.sin 0.01)) ∧
    EntriesWithin 1e-6 (Rz (Real.sin 0.01)) (Rz 0.01) := by
  refine ⟨?_, Rz_sin_close⟩
  have hs1 := solveStep_Rz 0.01 nominal hI h31 h32
  have hs2 := solveStep_Rz (0.01 - Real.sin 0.01) nominal hI h31 h32
  rw [diffRot, if_neg (by simp),
    diffRotLoop_continue _ _ _ _ _ _ _ hs1 (first_normsq_ge 0),
    moveCurrent_eq _ _ _ _ (by simp) (by simp), one_mul_mat, toMatrix_z]
  have hmap : (nominal.map (Rz 0.01).mulVec).map (Rz (Real.sin 0.01)).multiplyInverse =
      nominal.map (Rz (0.01 - Real.sin 0.01)).mulVec := by
    rw [List.map_map]
    apply List.map_congr_left
    intro v _
    exact multiplyInverse_Rz _ _ v
  rw [hmap]
  apply diffRotLoop_break _ _ _ _ _ _ _ hs2
  obtain ⟨hr1, hr2⟩ := sin_residual_bounds
  have hb := normsq_le_of_abs_le (v := ⟨0, 0, Real.sin (0.01 - Real.sin 0.01)⟩)
    (a := 0) (b := 0) (c := 0.00000025) (by simp) (by simp)
    (by rw [abs_of_nonneg hr1]; exact hr2)
  refine lt_of_le_of_lt hb ?_
  simp only [tolerance]
  norm_num


/-- The correction solved in the second pass for the skew cloud turned by `φ`,
after a first correction `(0, b, g)`. -/
theorem solveStep_skewCloud_moved (φ b g : ℝ) :
    solveStep (inertia skewCloud) skewCloud
        ((skewCloud.map (Rz φ).mulVec).map (toMatrix ⟨0, b, g⟩).multiplyInverse) =
      some ⟨Real.sin (φ - g) * (-3 + 6 * Real.sin b + 3 * Real.cos b) / 15,
            (Real.cos b * (1 - Real.cos (φ - g)) - Real.sin b * (2 + Real.cos (φ - g))) / 3,
            Real.sin (φ - g) * (6 + 3 * Real.sin b + 9 * Real.cos b) / 15⟩ := by
  rw [solveStep, inertia_skewCloud, solve]
  have hd : (⟨3, 0, 3, -1, 0, 2⟩ : SymMat3 ℝ).det = 15 := by
    simp [SymMat3.det]; norm_num
  rw [hd]
  simp only [rhsSum, skewCloud, List.map_cons, List.map_nil, List.zip_cons_cons, List.zip_nil_right,
    List.foldl_cons, List.foldl_nil, rhsStep, Vec3.zero, Mat3.multiplyInverse, Mat3.mulVec,
    toMatrix, Rz, Real.sin_zero, Real.cos_zero, Real.sin_sub, Real.cos_sub]
  norm_num
  refine ⟨by ring, by ring, by ring⟩


theorem abs_mul_le_of {a b A B : ℝ} (ha : |a| ≤ A) (hb : |b| ≤ B) : |a * b| ≤ A * B := by
  rw [abs_mul]
  exact mul_le_mul ha hb (abs_nonneg _) (le_trans (abs_nonneg _) ha)

/-- The y component of the first correction for the skew cloud. -/
theorem tilt_bounds :
    (0.0000166 : ℝ) ≤ (1 - Real.cos 0.01) / 3 ∧ (1 - Real.cos 0.01) / 3 ≤ 0.0000167 := by
  obtain ⟨h1, h2⟩ := cos_hundredth
  constructor <;> norm_num at h1 h2 ⊢ <;> linarith

theorem sin_tilt_bounds :
    (0.000016 : ℝ) ≤ Real.sin ((1 - Real.cos 0.01) / 3) ∧
    Real.sin ((1 - Real.cos 0.01) / 3) ≤ 0.0000167 := by
  obtain ⟨h1, h2⟩ := tilt_bounds
  set b := (1 - Real.cos 0.01) / 3 with hb
  have hbpos : 0 < b := by norm_num at h1; linarith
  have hble : b ≤ 1 := by norm_num at h2; linarith
  have hlo := Real.sin_gt_sub_cube hbpos hble
  have hhi := Real.sin_lt hbpos
  have hb3 : b ^ 3 ≤ (0.0000167 : ℝ) ^ 3 := pow_le_pow_left₀ hbpos.le h2 3
  constructor <;> norm_num at h1 h2 hb3 ⊢ <;> linarith

/-- The second correction for the skew cloud turned by 0.01 rad is below the
tolerance. -/
theorem second_normsq_lt :
    (⟨Real.sin (0.01 - Real.sin 0.01) *
          (-3 + 6 * Real.sin ((1 - Real.cos 0.01) / 3) +
            3 * Real.cos ((1 - Real.cos 0.01) / 3)) / 15,
      (Real.cos ((1 - Real.cos 0.01) / 3) * (1 - Real.cos (0.01 - Real.sin 0.01)) -
          Real.sin ((1 - Real.cos 0.01) / 3) * (2 + Real.cos (0.01 - Real.sin 0.01))) / 3,
      Real.sin (0.01 - Real.sin 0.01) *
          (6 + 3 * Real.sin ((1 - Real.cos 0.01) / 3) +
            9 * Real.cos ((1 - Real.cos 0.01) / 3)) / 15⟩ : Vec3 ℝ).normsq < tolerance := by
  obtain ⟨hu1, hu2⟩ := sin_residual_bounds
  obtain ⟨hs1, hs2⟩ := sin_tilt_bounds
  obtain ⟨hd1, hd2⟩ := residual_bounds
  set u := Real.sin (0.01 - Real.sin 0.01) with hu
  set v := Real.cos (0.01 - Real.sin 0.01) with hv
  set s2 := Real.sin ((1 - Real.cos 0.01) / 3) with hs
  set c2 := Real.cos ((1 - Real.cos 0.01) / 3) with hc
  have hc2 : |c2| ≤ 1 := Real.abs_cos_le_one _
  obtain ⟨hc2lo, hc2hi⟩ := abs_le.mp hc2
  have hv1 : v ≤ 1 := Real.cos_le_one _
  have hv0 : 0 ≤ v := by
    have h := Real.one_sub_sq_div_two_le_cos (x := 0.01 - Real.sin 0.01)
    have hsq : (0.01 - Real.sin 0.01) ^ 2 ≤ (0.00000025 : ℝ) ^ 2 :=
      pow_le_pow_left₀ hd1.le hd2 2
    norm_num at hsq h ⊢
    linarith
  have hv2 : 1 - v ≤ 0.000001 := by
    have h := Real.one_sub_sq_div_two_le_cos (x := 0.01 - Real.sin 0.01)
    have hsq : (0.01 - Real.sin 0.01) ^ 2 ≤ (0.00000025 : ℝ) ^ 2 :=
      pow_le_pow_left₀ hd1.le hd2 2
    norm_num at hsq h ⊢
    linarith
  have hau : |u| ≤ 0.00000025 := by rw [abs_of_nonneg hu1]; exact hu2
  have hx : |u * (-3 + 6 * s2 + 3 * c2) / 15| ≤ 0.00000025 * 7 / 15 := by
    rw [abs_div, abs_of_pos (by norm_num : (0 : ℝ) < 15)]
    apply div_le_div_of_nonneg_right _ (by norm_num)
    apply abs_mul_le_of hau
    rw [abs_le]
    constructor <;> norm_num at hs1 hs2 ⊢ <;> linarith
  have hz : |u * (6 + 3 * s2 + 9 * c2) / 15| ≤ 0.00000025 * 16 / 15 := by
    rw [abs_div, abs_of_pos (by norm_num : (0 : ℝ) < 15)]
    apply div_le_div_of_nonneg_right _ (by norm_num)
    apply abs_mul_le_of hau
    rw [abs_le]
    constructor <;> norm_num at hs1 hs2 ⊢ <;> linarith
  have hy : |(c2 * (1 - v) - s2 * (2 + v)) / 3| ≤ (1 * 0.000001 + 0.0000167 * 3) / 3 := by
    rw [abs_div, abs_of_pos (by norm_num : (0 : ℝ) < 3)]
    apply div_le_div_of_nonneg_right _ (by norm_num)
    refine (abs_sub _ _).trans (add_le_add ?_ ?_)
    · apply abs_mul_le_of hc2
      rw [abs_of_nonneg (by linarith)]; exact hv2
    · apply abs_mul_le_of
      · rw [abs_of_nonneg (by norm_num at hs1; linarith)]; exact hs2
      · rw [abs_of_nonneg (by linarith)]; linarith
  refine lt_of_le_of_lt (normsq_le_of_abs_le hx hy hz) ?_
  simp only [tolerance]
  norm_num

/-- Claim C2 fails on the skew cloud: its three points are not collinear, yet
for `current_j = Rz(0.01)·nominal_j` the loop breaks in its second pass with
`toMatrix(0, (1 - cos 0.01)/3, sin 0.01)`, whose `zx` entry exceeds `1e-6`
while that of `Rz(0.01)` is zero; so no amount of fuel gives a matrix within
`1e-6` of `Rz(0.01)`. -/
theorem skewCloud_refutes_hundredth :
    3 ≤ skewCloud.length ∧ ¬ Collinear skewCloud ∧
    ¬ ∃ fuel R, diffRot fuel (skewCloud.map (Rz 0.01).mulVec) skewCloud = some R ∧
      EntriesWithin 1e-6 R (Rz 0.01) := by
  refine ⟨by simp [skewCloud], not_collinear_skewCloud, ?_⟩
  rintro ⟨fuel, R, h, hclose⟩
  have hs1 := solveStep_skewCloud 0.01
  have hn1 := first_normsq_ge ((1 - Real.cos 0.01) / 3)
  rw [diffRot, if_neg (by simp)] at h
  match fuel, h with
  | 0, h => simp [diffRotLoop] at h
  | 1, h =>
    rw [diffRotLoop_continue _ _ _ _ _ _ _ hs1 hn1] at h
    simp [diffRotLoop] at h
  | n + 2, h =>
    rw [diffRotLoop_continue _ _ _ _ _ _ _ hs1 hn1,
      moveCurrent_eq _ _ _ _ (by simp) (by simp), one_mul_mat,
      diffRotLoop_break _ _ _ _ _ _ _ (solveStep_skewCloud_moved _ _ _) second_normsq_lt] at h
    cases h
    obtain ⟨-, -, -, -, -, -, hzx, -, -⟩ := hclose
    obtain ⟨hlo, -⟩ := sin_tilt_bounds
    simp only [toMatrix, Rz, sub_zero] at hzx
    rw [abs_of_nonneg (by norm_num at hlo; linarith)] at hzx
    norm_num at hzx hlo
    linarith

/-! ### Concrete inputs -/

theorem inertia_flatCloud : inertia flatCloud = ⟨2, -1, 2, 0, 0, 4⟩ := by
  ext <;> simp [inertia, flatCloud, inertiaStep, SymMat3.zero] <;> norm_num

theorem det_inertia_flatCloud : (inertia flatCloud).det ≠ 0 := by
  rw [inertia_flatCloud]
  simp [SymMat3.det]
  norm_num

theorem properRotation_pythagoreanRot : pythagoreanRot.IsProperRotation := by
  constructor
  · ext <;> simp [pythagoreanRot, Mat3.mul, Mat3.transpose, Mat3.one] <;> norm_num
  · simp [pythagoreanRot, Mat3.det]
    norm_num

/-- The 3-4-5 rotation about the z axis survives the round trip (claim C1 at
`pythagoreanRot`). -/
theorem toMatrix_toAngles_witness :
    toMatrix (toAngles posZeros pythagoreanRot) = pythagoreanRot ∧
    rectify posZeros pythagoreanRot = pythagoreanRot :=
  toMatrix_toAngles posZeros pythagoreanRot properRotation_pythagoreanRot
    (by simp [pythagoreanRot])

/-- The flat cloud turned by 0.01 rad is fitted in two passes (claim C2,
amended, at `flatCloud`). -/
theorem diffRot_Rz_hundredth_witness :
    diffRot 2 (flatCloud.map (Rz 0.01).mulVec) flatCloud = some (Rz (Real.sin 0.01)) ∧
    EntriesWithin 1e-6 (Rz (Real.sin 0.01)) (Rz 0.01) :=
  diffRot_Rz_hundredth 0 flatCloud det_inertia_flatCloud
    (by rw [inertia_flatCloud]) (by rw [inertia_flatCloud])

/-- The flat cloud compared with itself (claim C3 at `flatCloud`). -/
theorem diffRot_self_witness :
    diffRot 1 flatCloud flatCloud = some Mat3.one ∧
    solveStep (inertia flatCloud) flatCloud flatCloud = some Vec3.zero :=
  diffRot_self 0 flatCloud det_inertia_flatCloud

/-- The flat cloud compared with its negation (claim C7 at `flatCloud`). -/
theorem diffRot_negated_witness :
    diffRot 1 (flatCloud.map Vec3.neg) flatCloud = some Mat3.one :=
  (diffRot_negated 0 flatCloud det_inertia_flatCloud).2.2

/-- The flat cloud turned by π about the z axis (claim C8, amended, at
`flatCloud`). -/
theorem diffRot_Rz_pi_witness :
    diffRot 1 (flatCloud.map (Rz Real.pi).mulVec) flatCloud = some Mat3.one :=
  diffRot_Rz_pi 0 flatCloud det_inertia_flatCloud
    (by rw [inertia_flatCloud]) (by rw [inertia_flatCloud])

end align

/-! ## Properties of the utilities, the node rotations, the registry and the pointer -/

namespace align

/-- Claim C11 fails at the empty list: there is no guard on the division, and
`motherPosition` returns a position, each coordinate of which is NaN. -/
theorem motherPosition_empty_returns_nan :
    (∃ p : Vec3 (Scalar ℚ), motherPosition ([] : List (Vec3 ℚ)) = p ∧ p = ⟨.nan, .nan, .nan⟩) ∧
    Scalar.oneOver ((([] : List (Vec3 ℚ)).length : ℕ) : ℚ) = .posInf :=
  ⟨⟨_, motherPosition_nil, rfl⟩, by simp [Scalar.oneOver]⟩

/-- Claim C11, amended: `motherPosition` returns a position with every
coordinate a number exactly when its input is non-empty: for the empty list
the divisor `nDau` is zero, the unguarded quotient `1. / nDau` is `+∞` and the
position returned has NaN in every coordinate; for every non-empty list the
divisor is non-zero and every coordinate is a number. -/
theorem motherPosition_defined_iff {K : Type} [LinearOrderedField K]
    (dauPos : List (Vec3 K)) :
    (IsDefinedPosition (motherPosition dauPos) ↔ dauPos ≠ []) ∧
    (dauPos = [] → dauPos.length = 0 ∧
      Scalar.oneOver ((dauPos.length : ℕ) : K) = .posInf ∧
      motherPosition dauPos = ⟨.nan, .nan, .nan⟩) ∧
    (dauPos ≠ [] → dauPos.length ≠ 0 ∧ ((dauPos.length : ℕ) : K) ≠ 0 ∧
      ∃ p : Vec3 K, motherPosition dauPos = numPosition p) := by
  by_cases h : dauPos = []
  · subst h
    refine ⟨?_, fun _ => ⟨rfl, by simp [Scalar.oneOver], motherPosition_nil⟩,
      fun hne => absurd rfl hne⟩
    rw [motherPosition_nil]
    constructor
    · rintro ⟨⟨x, hx⟩, -⟩
      cases hx
    · intro hne
      exact absurd rfl hne
  · have hl : dauPos.length ≠ 0 := fun h0 => h (List.length_eq_zero.mp h0)
    have hk : ((dauPos.length : ℕ) : K) ≠ 0 := by exact_mod_cast hl
    refine ⟨?_, fun he => absurd he h, fun _ => ⟨hl, hk, _, motherPosition_eq dauPos h⟩⟩
    rw [motherPosition_eq dauPos h]
    exact ⟨fun _ => h, fun _ => ⟨⟨_, rfl⟩, ⟨_, rfl⟩, ⟨_, rfl⟩⟩⟩

/-- The two cases of claim C11, amended, at the empty list and at a list of
two rational points. -/
theorem motherPosition_defined_iff_witness :
    motherPosition ([] : List (Vec3 ℚ)) = ⟨.nan, .nan, .nan⟩ ∧
    ∃ p : Vec3 ℚ, motherPosition [(⟨0, 0, 0⟩ : Vec3 ℚ), ⟨2, 0, 0⟩] = numPosition p :=
  ⟨((motherPosition_defined_iff ([] : List (Vec3 ℚ))).2.1 rfl).2.2,
   ((motherPosition_defined_iff [(⟨0, 0, 0⟩ : Vec3 ℚ), ⟨2, 0, 0⟩]).2.2 (by simp)).2.2⟩

/-! ### `toMatrix` as a product of principal-axis rotations -/

theorem toMatrix_eq_mul (a b g : ℝ) :
    toMatrix ⟨a, b, g⟩ = (Rz g).mul ((Ry b).mul (Rx a)) := by
  ext <;> simp [toMatrix, Rx, Ry, Rz, Mat3.mul] <;> ring

theorem mat_mul_assoc (a b c : Mat3 ℝ) : (a.mul b).mul c = a.mul (b.mul c) := by
  ext <;> simp [Mat3.mul] <;> ring

theorem toMatrix_x (t : ℝ) : toMatrix ⟨t, 0, 0⟩ = Rx t := by
  ext <;> simp [toMatrix, Rx]

theorem toMatrix_y (t : ℝ) : toMatrix ⟨0, t, 0⟩ = Ry t := by
  ext <;> simp [toMatrix, Ry]

/-- Claim C12: for all real angles `toMatrix(α, β, γ)` is the product
`Rz(γ)·Ry(β)·Rx(α)` of the principal-axis rotation matrices that
`rotateAround{Global,Local}{X,Y,Z}` hand to the frame rotation; in particular
`toMatrix(t,0,0) = Rx(t)`, `toMatrix(0,t,0) = Ry(t)`, `toMatrix(0,0,t) = Rz(t)`. -/
theorem toMatrix_product (a b g t : ℝ) :
    toMatrix ⟨a, b, g⟩ = (Rz g).mul ((Ry b).mul (Rx a)) ∧
    toMatrix ⟨a, b, g⟩ = ((Rz g).mul (Ry b)).mul (Rx a) ∧
    toMatrix ⟨t, 0, 0⟩ = Rx t ∧ toMatrix ⟨0, t, 0⟩ = Ry t ∧ toMatrix ⟨0, 0, t⟩ = Rz t ∧
    (∀ (toGlobal : Alignable.Fields ℝ → Mat3 ℝ → Mat3 ℝ)
        (rotateInGlobalFrame : Mat3 ℝ → Alignable.Fields ℝ → Alignable.Fields ℝ)
        (n : Alignable.Fields ℝ),
      Alignable.rotateAroundGlobalX rotateInGlobalFrame t n = rotateInGlobalFrame (Rx t) n ∧
      Alignable.rotateAroundGlobalY rotateInGlobalFrame t n = rotateInGlobalFrame (Ry t) n ∧
      Alignable.rotateAroundGlobalZ rotateInGlobalFrame t n = rotateInGlobalFrame (Rz t) n ∧
      Alignable.rotateAroundLocalX toGlobal rotateInGlobalFrame t n =
        Alignable.rotateInLocalFrame toGlobal rotateInGlobalFrame (Rx t) n ∧
      Alignable.rotateAroundLocalY toGlobal rotateInGlobalFrame t n =
        Alignable.rotateInLocalFrame toGlobal rotateInGlobalFrame (Ry t) n ∧
      Alignable.rotateAroundLocalZ toGlobal rotateInGlobalFrame t n =
        Alignable.rotateInLocalFrame toGlobal rotateInGlobalFrame (Rz t) n) := by
  refine ⟨toMatrix_eq_mul a b g, ?_, toMatrix_x t, toMatrix_y t, toMatrix_z t, ?_⟩
  · rw [mat_mul_assoc]; exact toMatrix_eq_mul a b g
  · intro toGlobal f n
    exact ⟨rfl, rfl, rfl, rfl, rfl, rfl⟩

end align

namespace Alignable

/-! ### Accumulated rotation and displacement -/

theorem Rz_mul_Rz (a b : ℝ) : (align.Rz a).mul (align.Rz b) = align.Rz (a + b) := by
  ext <;> simp [align.Rz, Mat3.mul, Real.cos_add, Real.sin_add] <;> ring

/-- Claim C13: for a node whose `rotateInGlobalFrame` is `addRotation`,
`rotateAroundGlobalZ(a)` followed by `rotateAroundGlobalZ(b)` leaves the same
accumulated rotation (and the same node) as `rotateAroundGlobalZ(a + b)`; in
particular a turn by `π/2` applied twice is a turn by `π` applied once. -/
theorem rotateAroundGlobalZ_add
    (rotateInGlobalFrame : Mat3 ℝ → Fields ℝ → Fields ℝ)
    (h : rotateInGlobalFrame = addRotation) (a b : ℝ) (n : Fields ℝ) :
    rotateAroundGlobalZ rotateInGlobalFrame b (rotateAroundGlobalZ rotateInGlobalFrame a n) =
      rotateAroundGlobalZ rotateInGlobalFrame (a + b) n ∧
    (rotateAroundGlobalZ rotateInGlobalFrame b
        (rotateAroundGlobalZ rotateInGlobalFrame a n)).theRotation =
      (n.theRotation.mul (align.Rz a)).mul (align.Rz b) ∧
    (rotateAroundGlobalZ rotateInGlobalFrame (a + b) n).theRotation =
      n.theRotation.mul (align.Rz (a + b)) ∧
    rotateAroundGlobalZ rotateInGlobalFrame (Real.pi / 2)
        (rotateAroundGlobalZ rotateInGlobalFrame (Real.pi / 2) n) =
      rotateAroundGlobalZ rotateInGlobalFrame Real.pi n := by
  subst h
  have key : ∀ x y : ℝ, rotateAroundGlobalZ addRotation y (rotateAroundGlobalZ addRotation x n) =
      rotateAroundGlobalZ addRotation (x + y) n := by
    intro x y
    simp only [rotateAroundGlobalZ, addRotation]
    rw [align.mat_mul_assoc, Rz_mul_Rz]
  refine ⟨key a b, rfl, rfl, ?_⟩
  rw [key, add_halves]

/-- A fresh node turned twice by `π/2` about the global z axis (claim C13 at
`fresh`). -/
theorem rotateAroundGlobalZ_add_witness :
    rotateAroundGlobalZ addRotation (Real.pi / 2)
        (rotateAroundGlobalZ addRotation (Real.pi / 2) fresh) =
      rotateAroundGlobalZ addRotation Real.pi fresh :=
  (rotateAroundGlobalZ_add addRotation rfl (Real.pi / 2) (Real.pi / 2) fresh).2.2.2

/-- Claim C14: `addRotation(r)` replaces the accumulated rotation `R` by `R·r`
and changes no other field; `addDisplacement(v)` replaces the accumulated
displacement `d` by `d + v` and changes no other field; two `addRotation`
calls with `r1` then `r2` leave `R·r1·r2`, and `addDisplacement` and
`addRotation` commute. -/
theorem addRotation_addDisplacement {K : Type} [Add K] [Mul K]
    (n : Fields K) (r r1 r2 : Mat3 K) (v : Vec3 K) :
    addRotation r n =
      ⟨n.theMisalignmentActive, n.theDetId, n.theAlignmentParameters, n.theMother,
        n.theSurvey, n.theDisplacement, n.theRotation.mul r⟩ ∧
    addDisplacement v n =
      ⟨n.theMisalignmentActive, n.theDetId, n.theAlignmentParameters, n.theMother,
        n.theSurvey, n.theDisplacement.add v, n.theRotation⟩ ∧
    (addRotation r2 (addRotation r1 n)).theRotation = (n.theRotation.mul r1).mul r2 ∧
    addDisplacement v (addRotation r n) = addRotation r (addDisplacement v n) :=
  ⟨rfl, rfl, rfl, rfl⟩

end Alignable

namespace AlignSetup

variable {T : Type}

/-! ### The registry -/

theorem lookup_insertEntry_self (name : String) (v : T) :
    ∀ l : List (String × T), l.lookup name = none →
      (insertEntry name v l).lookup name = some v := by
  intro l
  induction l with
  | nil => intro _; simp [insertEntry, List.lookup]
  | cons e rest ih =>
    obtain ⟨k, w⟩ := e
    intro h
    have hk : (name == k) = false := by
      cases hb : (name == k) with
      | false => rfl
      | true => simp [List.lookup, hb] at h
    have hrest : rest.lookup name = none := by
      simpa [List.lookup, hk] using h
    by_cases hlt : name < k
    · simp [insertEntry, hlt, List.lookup]
    · simp [insertEntry, hlt, List.lookup, hk, ih hrest]

theorem lookup_insertEntry_other (name other : String) (v : T) (hne : other ≠ name) :
    ∀ l : List (String × T), (insertEntry name v l).lookup other = l.lookup other := by
  intro l
  have hb : (other == name) = false := by simpa using hne
  induction l with
  | nil => simp [insertEntry, List.lookup, hb]
  | cons e rest ih =>
    obtain ⟨k, w⟩ := e
    by_cases hlt : name < k
    · simp [insertEntry, hlt, List.lookup, hb]
    · cases hk : (other == k) <;> simp [insertEntry, hlt, List.lookup, hk, ih]

/-- Claim C15: `find(name)` fails with an error exactly when the store has no
entry for `name` and otherwise returns the stored value, leaving the store
unchanged in both outcomes; `get(name)` always returns a value, the existing
one when present and a default-constructed one that it inserts when absent,
without changing any other entry, so that `find(name)` after `get(name)`
succeeds with the same value. -/
theorem find_get [Inhabited T] (s : AlignSetup T) (name : String) :
    ((∃ e, (s.find name).1 = .error e) ↔ s.lookup name = none) ∧
    (∀ v, s.lookup name = some v → (s.find name).1 = .ok v) ∧
    (s.find name).2 = s ∧
    (∀ v, s.lookup name = some v → s.get name = (v, s)) ∧
    (s.lookup name = none →
      (s.get name).1 = default ∧ (s.get name).2.lookup name = some default) ∧
    (∀ other, other ≠ name → (s.get name).2.lookup other = s.lookup other) ∧
    ((s.get name).2.find name).1 = .ok (s.get name).1 := by
  cases h : s.theStore.lookup name with
  | none =>
    have h1 := lookup_insertEntry_self name (default : T) s.theStore h
    refine ⟨?_, ?_, ?_, ?_, ?_, ?_, ?_⟩
    · simp [find, lookup, h]
    · simp [lookup, h]
    · simp [find, h]
    · simp [lookup, h]
    · intro _; simp [get, lookup, h, h1]
    · intro other hne
      simp [get, lookup, h, lookup_insertEntry_other name other default hne]
    · simp [get, find, h, h1]
  | some w =>
    refine ⟨?_, ?_, ?_, ?_, ?_, ?_, ?_⟩
    · simp [find, lookup, h]
    · intro v hv
      simp only [lookup, h, Option.some.injEq] at hv
      simp [find, h, hv]
    · simp [find, h]
    · intro v hv
      simp only [lookup, h, Option.some.injEq] at hv
      simp [get, h, hv]
    · simp [lookup, h]
    · intro other _; simp [get, h]
    · simp [get, find, h]

/-- The sample registry asked for the missing name `b`: `find` fails, `get`
returns the default 0 and files it between `a` and `c` (claim C15 at
`sample`). -/
theorem find_get_witness :
    (∃ e, (sample.find "b").1 = .error e) ∧
    sample.get "b" = (0, ⟨[("a", 1), ("b", 0), ("c", 2)]⟩) ∧
    ((sample.get "b").2.find "b").1 = .ok (sample.get "b").1 := by
  have h1 : ¬ ("b" < "a") := by rw [String.lt_iff_toList_lt]; decide
  have h2 : "b" < "c" := by rw [String.lt_iff_toList_lt]; decide
  have h3 : sample.theStore.lookup "b" = none := by decide
  refine ⟨(find_get sample "b").1.mpr h3, ?_, (find_get sample "b").2.2.2.2.2.2⟩
  simp [get, h3]
  simp [sample, insertEntry, h1, h2]

end AlignSetup

namespace AlignableDetOrUnitPtr

/-- Claim C16: a reference holding exactly one of the two pointers converts to
the node it holds, the det when the det pointer is non-null and otherwise the
unit; the result is null only when neither is held; and the const and the
non-const conversion return the same node. -/
theorem toAlignable_held (p : AlignableDetOrUnitPtr) :
    (∀ det, p.theAliDet = some det → p.theAliDetUnit = none →
      p.toAlignable = some det.base) ∧
    (∀ unit, p.theAliDet = none → p.theAliDetUnit = some unit →
      p.toAlignable = some unit.base) ∧
    (∀ det, p.theAliDet = some det → p.toAlignable = some det.base) ∧
    (p.theAliDet = none → p.toAlignable = p.theAliDetUnit.map AlignableDetUnit.base) ∧
    (p.toAlignable = none ↔ p.theAliDet = none ∧ p.theAliDetUnit = none) ∧
    p.toAlignableConst = p.toAlignable := by
  obtain ⟨d, u⟩ := p
  cases d <;> cases u <;> simp [toAlignable, toAlignableConst]

end AlignableDetOrUnitPtr

namespace align

/-! ### Every matrix `toMatrix` builds is a proper rotation -/

theorem transpose_mat_mul (a b : Mat3 ℝ) :
    (a.mul b).transpose = b.transpose.mul a.transpose := by
  ext <;> simp [Mat3.mul, Mat3.transpose] <;> ring

theorem mat_mul_one (a : Mat3 ℝ) : a.mul Mat3.one = a := by
  ext <;> simp [Mat3.mul, Mat3.one]

theorem det_mat_mul (a b : Mat3 ℝ) : (a.mul b).det = a.det * b.det := by
  simp only [Mat3.det, Mat3.mul]; ring

theorem properRotation_one : (Mat3.one : Mat3 ℝ).IsProperRotation := by
  constructor
  · ext <;> simp [Mat3.mul, Mat3.transpose, Mat3.one]
  · simp [Mat3.det, Mat3.one]

theorem properRotation_mul {a b : Mat3 ℝ} (ha : a.IsProperRotation)
    (hb : b.IsProperRotation) : (a.mul b).IsProperRotation := by
  constructor
  · rw [transpose_mat_mul, mat_mul_assoc, ← mat_mul_assoc b, hb.1, one_mul_mat, ha.1]
  · rw [det_mat_mul, ha.2, hb.2, mul_one]

theorem properRotation_Rx (t : ℝ) : (Rx t).IsProperRotation := by
  have h := Real.sin_sq_add_cos_sq t
  constructor
  · ext <;> simp only [Mat3.mul, Mat3.transpose, Mat3.one, Rx] <;>
      first | linear_combination h | linear_combination (0 : ℝ) * h
  · simp only [Mat3.det, Rx]; linear_combination h

theorem properRotation_Ry (t : ℝ) : (Ry t).IsProperRotation := by
  have h := Real.sin_sq_add_cos_sq t
  constructor
  · ext <;> simp only [Mat3.mul, Mat3.transpose, Mat3.one, Ry] <;>
      first | linear_combination h | linear_combination (0 : ℝ) * h
  · simp only [Mat3.det, Ry]; linear_combination h

theorem properRotation_Rz (t : ℝ) : (Rz t).IsProperRotation := by
  have h := Real.sin_sq_add_cos_sq t
  constructor
  · ext <;> simp only [Mat3.mul, Mat3.transpose, Mat3.one, Rz] <;>
      first | linear_combination h | linear_combination (0 : ℝ) * h
  · simp only [Mat3.det, Rz]; linear_combination h

theorem properRotation_toMatrix (angles : Vec3 ℝ) : (toMatrix angles).IsProperRotation := by
  obtain ⟨a, b, g⟩ := angles
  rw [toMatrix_eq_mul]
  exact properRotation_mul (properRotation_Rz g)
    (properRotation_mul (properRotation_Ry b) (properRotation_Rx a))

/-- The loop of `diffRot` keeps the accumulated rotation a proper rotation. -/
theorem diffRotLoop_proper (current nominal : List (Vec3 ℝ)) (I : SymMat3 ℝ) (R : Mat3 ℝ) :
    ∀ (fuel : Nat) (rot : Mat3 ℝ) (rotated : List (Vec3 ℝ)), rot.IsProperRotation →
      diffRotLoop current nominal I fuel rot rotated = some R → R.IsProperRotation := by
  intro fuel
  induction fuel with
  | zero => intro rot rotated _ h; simp [diffRotLoop] at h
  | succ n ih =>
    intro rot rotated hrot h
    cases hs : solveStep I nominal rotated with
    | none => simp [diffRotLoop, hs] at h
    | some dOmega =>
      by_cases hn : dOmega.normsq < tolerance
      · rw [diffRotLoop_break _ _ _ _ _ _ _ hs hn] at h
        cases h
        exact hrot
      · rw [diffRotLoop_continue _ _ _ _ _ _ _ hs hn] at h
        exact ih _ _ (properRotation_mul hrot (properRotation_toMatrix dOmega)) h

/-- Claim C18: for every triple of angles `toMatrix(angles)` is a proper
rotation matrix (`M·Mᵀ` is the identity and `det M = 1`); hence `rectify(R)` is
a proper rotation for every matrix `R`, and so is every matrix `diffRot`
returns. -/
theorem toMatrix_isProperRotation :
    (∀ angles : Vec3 ℝ, (toMatrix angles).mul (toMatrix angles).transpose = Mat3.one ∧
      (toMatrix angles).det = 1) ∧
    (∀ (negZero : Mat3 Bool) (R : Mat3 ℝ), (rectify negZero R).IsProperRotation) ∧
    (∀ (fuel : Nat) (current nominal : List (Vec3 ℝ)) (R : Mat3 ℝ),
      diffRot fuel current nominal = some R → R.IsProperRotation) := by
  refine ⟨fun angles => properRotation_toMatrix angles,
    fun negZero R => properRotation_toMatrix _, ?_⟩
  intro fuel current nominal R h
  by_cases hl : current.length < nominal.length
  · simp [diffRot, hl] at h
  · rw [diffRot, if_neg hl] at h
    exact diffRotLoop_proper _ _ _ _ _ _ _ properRotation_one h


/-! ### The result of `diffRot` as a product of corrections -/

/-- Only the first `nominal.size()` moved vectors enter the cross-product
sum, and the moving loop sets them to the vectors moved by `rot`. -/
theorem rhsSum_moveCurrent (nominal current rotated : List (Vec3 ℝ)) (rot : Mat3 ℝ)
    (hlen : nominal.length ≤ current.length) :
    rhsSum (moveCurrent nominal.length rot current rotated) nominal =
      rhsSum (current.map rot.multiplyInverse) nominal := by
  have hA : ((current.take nominal.length).map rot.multiplyInverse).length = nominal.length := by
    simp [hlen]
  have h1 : (moveCurrent nominal.length rot current rotated).zip nominal =
      ((current.take nominal.length).map rot.multiplyInverse).zip nominal := by
    have := @List.zip_append _ _ ((current.take nominal.length).map rot.multiplyInverse)
      (rotated.drop nominal.length) nominal [] hA
    simpa [moveCurrent] using this
  have h2 : (current.map rot.multiplyInverse).zip nominal =
      ((current.take nominal.length).map rot.multiplyInverse).zip nominal := by
    have := @List.zip_append _ _ ((current.take nominal.length).map rot.multiplyInverse)
      ((current.drop nominal.length).map rot.multiplyInverse) nominal [] hA
    rw [← List.map_append, List.take_append_drop] at this
    simpa using this
  rw [rhsSum, rhsSum, h1, h2]

theorem applyCorrections_cons (rot : Mat3 ℝ) (d : Vec3 ℝ) (ds : List (Vec3 ℝ)) :
    applyCorrections rot (d :: ds) = applyCorrections (rot.mul (toMatrix d)) ds := rfl

/-- What the loop returns is the product of a chain of corrections, and the
correction solved after the last of them is below the tolerance. -/
theorem diffRotLoop_chain (current nominal : List (Vec3 ℝ)) (I : SymMat3 ℝ) (R : Mat3 ℝ)
    (hlen : nominal.length ≤ current.length) :
    ∀ (fuel : Nat) (rot : Mat3 ℝ) (rotated : List (Vec3 ℝ)),
      rhsSum rotated nominal = rhsSum (current.map rot.multiplyInverse) nominal →
      diffRotLoop current nominal I fuel rot rotated = some R →
      ∃ ds dLast, ds.length < fuel ∧ CorrectionChain current nominal I rot ds ∧
        R = applyCorrections rot ds ∧
        solveStep I nominal (current.map R.multiplyInverse) = some dLast ∧
        dLast.normsq < tolerance := by
  intro fuel
  induction fuel with
  | zero => intro rot rotated _ h; simp [diffRotLoop] at h
  | succ n ih =>
    intro rot rotated hinv h
    have hstep : solveStep I nominal rotated =
        solveStep I nominal (current.map rot.multiplyInverse) := by
      rw [solveStep, solveStep, hinv]
    cases hs : solveStep I nominal rotated with
    | none => simp [diffRotLoop, hs] at h
    | some dOmega =>
      by_cases hn : dOmega.normsq < tolerance
      · rw [diffRotLoop_break _ _ _ _ _ _ _ hs hn] at h
        cases h
        exact ⟨[], dOmega, Nat.succ_pos n, trivial, rfl, hstep ▸ hs, hn⟩
      · rw [diffRotLoop_continue _ _ _ _ _ _ _ hs hn] at h
        obtain ⟨ds, dLast, hlt, hch, hR, hlast, hsmall⟩ :=
          ih _ _ (rhsSum_moveCurrent nominal current rotated _ hlen) h
        refine ⟨dOmega :: ds, dLast, by simpa using hlt, ?_, ?_, hlast, hsmall⟩
        · exact ⟨hstep ▸ hs, not_lt.mp hn, hch⟩
        · rw [applyCorrections_cons]; exact hR

/-- A chain of corrections followed by a correction below the tolerance is
what the loop runs through, and it returns their product. -/
theorem diffRotLoop_of_chain (current nominal : List (Vec3 ℝ)) (I : SymMat3 ℝ)
    (hlen : nominal.length ≤ current.length) (dLast : Vec3 ℝ) (fuel : Nat) :
    ∀ (ds : List (Vec3 ℝ)) (rot : Mat3 ℝ) (rotated : List (Vec3 ℝ)),
      rhsSum rotated nominal = rhsSum (current.map rot.multiplyInverse) nominal →
      CorrectionChain current nominal I rot ds →
      solveStep I nominal (current.map (applyCorrections rot ds).multiplyInverse) = some dLast →
      dLast.normsq < tolerance →
      diffRotLoop current nominal I (ds.length + 1 + fuel) rot rotated =
        some (applyCorrections rot ds) := by
  intro ds
  induction ds with
  | nil =>
    intro rot rotated hinv _ hlast hsmall
    have hs : solveStep I nominal rotated = some dLast := by
      rw [solveStep, hinv]; exact hlast
    have e : ([] : List (Vec3 ℝ)).length + 1 + fuel = fuel + 1 := by simp [Nat.add_comm]
    rw [e]
    exact diffRotLoop_break _ _ _ _ _ _ _ hs hsmall
  | cons d ds ih =>
    intro rot rotated hinv hch hlast hsmall
    obtain ⟨hd, hbig, hrest⟩ := hch
    have hs : solveStep I nominal rotated = some d := by
      rw [solveStep, hinv]; exact hd
    have e : (d :: ds).length + 1 + fuel = (ds.length + 1 + fuel) + 1 := by
      simp only [List.length_cons]; omega
    rw [e, diffRotLoop_continue _ _ _ _ _ _ _ hs (not_lt.mpr hbig), applyCorrections_cons]
    exact ih _ _ (rhsSum_moveCurrent nominal current rotated _ hlen) hrest hlast hsmall

/-- The transpose applied by `multiplyInverse` undoes a proper rotation. -/
theorem multiplyInverse_mulVec {a : Mat3 ℝ} (h : a.IsProperRotation) (v : Vec3 ℝ) :
    a.multiplyInverse (a.mulVec v) = v ∧ a.mulVec (a.multiplyInverse v) = v := by
  obtain ⟨cxx, cxy, cxz, cyx, cyy, cyz, czx, czy, czz⟩ := properRotation_cofactors h
  obtain ⟨exx, exy, exz, eyy, eyz, ezz, hd⟩ := properRotation_rows h
  constructor
  · ext
    · simp only [Mat3.multiplyInverse, Mat3.mulVec]
      linear_combination (a.xx * v.x + a.xy * v.y + a.xz * v.z) * cxx
        + (a.yx * v.x + a.yy * v.y + a.yz * v.z) * cyx
        + (a.zx * v.x + a.zy * v.y + a.zz * v.z) * czx + v.x * hd
    · simp only [Mat3.multiplyInverse, Mat3.mulVec]
      linear_combination (a.xx * v.x + a.xy * v.y + a.xz * v.z) * cxy
        + (a.yx * v.x + a.yy * v.y + a.yz * v.z) * cyy
        + (a.zx * v.x + a.zy * v.y + a.zz * v.z) * czy + v.y * hd
    · simp only [Mat3.multiplyInverse, Mat3.mulVec]
      linear_combination (a.xx * v.x + a.xy * v.y + a.xz * v.z) * cxz
        + (a.yx * v.x + a.yy * v.y + a.yz * v.z) * cyz
        + (a.zx * v.x + a.zy * v.y + a.zz * v.z) * czz + v.z * hd
  · ext
    · simp only [Mat3.multiplyInverse, Mat3.mulVec]
      linear_combination v.x * exx + v.y * exy + v.z * exz
    · simp only [Mat3.multiplyInverse, Mat3.mulVec]
      linear_combination v.x * exy + v.y * eyy + v.z * eyz
    · simp only [Mat3.multiplyInverse, Mat3.mulVec]
      linear_combination v.x * exz + v.y * eyz + v.z * ezz


theorem properRotation_applyCorrections (ds : List (Vec3 ℝ)) :
    ∀ rot : Mat3 ℝ, rot.IsProperRotation → (applyCorrections rot ds).IsProperRotation := by
  induction ds with
  | nil => intro rot h; exact h
  | cons d ds ih =>
    intro rot h
    rw [applyCorrections_cons]
    exact ih _ (properRotation_mul h (properRotation_toMatrix d))

/-- Claim C17: whenever `diffRot` returns, after `k` accumulating passes, its
result is the ordered product `toMatrix(dOmega_1)·…·toMatrix(dOmega_k)` of
the corrections whose squared norm reached `1e-8`; each correction solves
`I·dOmega = Σ_j rotated_j × nominal_j` with `rotated_j` the current vector
moved by the inverse of the rotation accumulated so far; the correction below
the tolerance that ends the loop is not applied; and conversely such a chain
of corrections makes `diffRot` return their product.  In particular a first
correction below the tolerance gives the identity, whatever `current` is. -/
theorem diffRot_is_product (current nominal : List (Vec3 ℝ)) :
    (∀ fuel R, diffRot fuel current nominal = some R →
      ∃ ds dLast, ds.length < fuel ∧
        CorrectionChain current nominal (inertia nominal) Mat3.one ds ∧
        R = applyCorrections Mat3.one ds ∧
        solveStep (inertia nominal) nominal (current.map R.multiplyInverse) = some dLast ∧
        dLast.normsq < tolerance) ∧
    (∀ ds dLast fuel, nominal.length ≤ current.length →
      CorrectionChain current nominal (inertia nominal) Mat3.one ds →
      solveStep (inertia nominal) nominal
        (current.map (applyCorrections Mat3.one ds).multiplyInverse) = some dLast →
      dLast.normsq < tolerance →
      diffRot (ds.length + 1 + fuel) current nominal = some (applyCorrections Mat3.one ds)) ∧
    (∀ rotated d, solveStep (inertia nominal) nominal rotated = some d →
      (inertia nominal).mulVec d = rhsSum rotated nominal) ∧
    (∀ ds v, (applyCorrections Mat3.one ds).multiplyInverse
        ((applyCorrections Mat3.one ds).mulVec v) = v ∧
      (applyCorrections Mat3.one ds).mulVec
        ((applyCorrections Mat3.one ds).multiplyInverse v) = v) ∧
    (∀ fuel d, nominal.length ≤ current.length →
      solveStep (inertia nominal) nominal current = some d → d.normsq < tolerance →
      diffRot (fuel + 1) current nominal = some Mat3.one) := by
  have hinit : rhsSum current nominal =
      rhsSum (current.map (Mat3.one : Mat3 ℝ).multiplyInverse) nominal := by
    rw [map_multiplyInverse_one]
  refine ⟨?_, ?_, ?_, ?_, ?_⟩
  · intro fuel R h
    by_cases hl : current.length < nominal.length
    · simp [diffRot, hl] at h
    · rw [diffRot, if_neg hl] at h
      exact diffRotLoop_chain _ _ _ _ (not_lt.mp hl) _ _ _ hinit h
  · intro ds dLast fuel hl hch hlast hsmall
    rw [diffRot, if_neg (not_lt.mpr hl)]
    exact diffRotLoop_of_chain _ _ _ hl dLast fuel ds _ _ hinit hch hlast hsmall
  · intro rotated d h
    exact solve_sound _ _ _ h
  · intro ds v
    exact multiplyInverse_mulVec (properRotation_applyCorrections ds _ properRotation_one) v
  · intro fuel d hl hs hn
    rw [diffRot, if_neg (not_lt.mpr hl)]
    exact diffRotLoop_break _ _ _ _ _ _ _ hs hn

/-- The flat cloud turned by π differs from the flat cloud, yet its first
correction is below the tolerance and the identity is returned (claim C17 at
`flatCloud`). -/
theorem diffRot_is_product_witness :
    diffRot 1 (flatCloud.map (Rz Real.pi).mulVec) flatCloud = some Mat3.one ∧
    flatCloud.map (Rz Real.pi).mulVec ≠ flatCloud := by
  constructor
  · refine (diffRot_is_product (flatCloud.map (Rz Real.pi).mulVec) flatCloud).2.2.2.2 0
      ⟨0, 0, Real.sin Real.pi⟩ (by simp)
      (solveStep_Rz Real.pi flatCloud det_inertia_flatCloud
        (by rw [inertia_flatCloud]) (by rw [inertia_flatCloud])) ?_
    simp only [Vec3.normsq, Real.sin_pi, tolerance]
    norm_num
  · intro h
    have h0 := congrArg (fun l => (l.map Vec3.x).head?) h
    simp [flatCloud, Rz, Mat3.mulVec] at h0
    norm_num at h0


/-! ### The degenerate branch of `toAngles` -/

/-- At the origin `std::atan2` is `±0` when `x` is `+0` and `±π` when `x` is
`-0`, the sign being that of the zero `y`. -/
theorem atan2_zero_zero (s : ZeroSigns) :
    atan2 s 0 0 = if s.xNeg = false then 0 else if s.yNeg then -Real.pi else Real.pi := by
  simp [atan2]

theorem sq_add_sq_eq_zero {a b : ℝ} (h : a * a + b * b = 0) : a = 0 ∧ b = 0 := by
  have ha : 0 ≤ a * a := mul_self_nonneg a
  have hb : 0 ≤ b * b := mul_self_nonneg b
  exact ⟨mul_self_eq_zero.mp (by linarith), mul_self_eq_zero.mp (by linarith)⟩

/-- The entries of a proper rotation whose `zx` entry is `1` or `-1`. -/
theorem properRotation_pole {R : Mat3 ℝ} (hR : R.IsProperRotation) (s : ℝ)
    (hs : s * s = 1) (hzx : R.zx = s) :
    R.zy = 0 ∧ R.zz = 0 ∧ R.xx = 0 ∧ R.yx = 0 ∧ R.xy = s * R.yz ∧ R.xz = -(s * R.yy) ∧
      R.yy * R.yy + R.yz * R.yz = 1 := by
  obtain ⟨-, cxy, -, -, cyy, -, -, -, -⟩ := properRotation_cofactors hR
  obtain ⟨-, -, -, eyy, -, ezz, -⟩ := properRotation_rows hR
  have ecol := properRotation_col_x hR
  rw [hzx] at ezz ecol cxy cyy
  obtain ⟨hzy, hzz⟩ := sq_add_sq_eq_zero (a := R.zy) (b := R.zz) (by linarith)
  obtain ⟨hxx, hyx⟩ := sq_add_sq_eq_zero (a := R.xx) (b := R.yx) (by linarith)
  rw [hyx, hzz] at cxy
  rw [hxx, hzz] at cyy
  rw [hyx] at eyy
  refine ⟨hzy, hzz, hxx, hyx, by linarith, ?_, by linarith⟩
  have : s * R.yy = -(s * s) * R.xz := by rw [cyy]; ring
  rw [hs] at this
  linarith

theorem toMatrix_lockedDown : toMatrix ⟨0, -(Real.pi / 2), 0⟩ = lockedDown := by
  ext <;> simp [toMatrix, lockedDown]

theorem toMatrix_lockedBack : toMatrix ⟨Real.pi, -(Real.pi / 2), 0⟩ = lockedBack := by
  ext <;> simp [toMatrix, lockedBack]

theorem lockedBack_ne_lockedDown : lockedBack ≠ lockedDown := by
  intro h
  have h1 := congrArg Mat3.yy h
  simp only [lockedBack, lockedDown] at h1
  norm_num at h1

theorem properRotation_gimbalDown : gimbalDown.IsProperRotation := by
  constructor
  · ext <;> simp [gimbalDown, Mat3.mul, Mat3.transpose, Mat3.one]
  · simp [gimbalDown, Mat3.det]

theorem properRotation_gimbalUp : gimbalUp.IsProperRotation := by
  constructor
  · ext <;> simp [gimbalUp, Mat3.mul, Mat3.transpose, Mat3.one]
  · simp [gimbalUp, Mat3.det]

/-- Claim C20 fails at `gimbalDown` when its zero entry `yy` is `-0.0` and its
zero entry `xz` is `+0.0`: the second argument `.5 * (yy - xz)` of `atan2` is
then `-0.0`, `toAngles` returns `(π, -π/2, 0)` rather than `(0, -π/2, 0)`, and
`toMatrix(toAngles(R))` is `[[0,0,-1],[0,-1,0],[-1,0,0]]`, not
`[[0,0,1],[0,1,0],[-1,0,0]]`. -/
theorem gimbalDown_refutes_locked :
    gimbalDown.IsProperRotation ∧ gimbalDown.zx = -1 ∧
    toAngles negZeroYY gimbalDown = ⟨Real.pi, -(Real.pi / 2), 0⟩ ∧
    toAngles negZeroYY gimbalDown ≠ ⟨0, -(Real.pi / 2), 0⟩ ∧
    toMatrix (toAngles negZeroYY gimbalDown) = lockedBack ∧
    toMatrix (toAngles negZeroYY gimbalDown) ≠ lockedDown := by
  have hang : toAngles negZeroYY gimbalDown = ⟨Real.pi, -(Real.pi / 2), 0⟩ := by
    have hbr : ¬ |gimbalDown.zx| < 1 := by simp [gimbalDown]
    have hpos : ¬ gimbalDown.zx > 0 := by simp [gimbalDown]
    rw [toAngles, if_neg hbr, if_neg hpos, Real.arcsin_neg_one]
    have h1 : (0.5 : ℝ) * (gimbalDown.xy + gimbalDown.yz) = 0 := by
      simp [gimbalDown]
    have h2 : (0.5 : ℝ) * (gimbalDown.yy - gimbalDown.xz) = 0 := by
      simp [gimbalDown]
    rw [h1, h2, atan2_zero_zero]
    simp [diffNegZero, sumNegZero, gimbalDown, negZeroYY]
  refine ⟨properRotation_gimbalDown, rfl, hang, ?_, ?_, ?_⟩
  · rw [hang]
    intro h
    have h1 := congrArg Vec3.x h
    exact Real.pi_ne_zero h1
  · rw [hang, toMatrix_lockedBack]
  · rw [hang, toMatrix_lockedBack]
    exact lockedBack_ne_lockedDown

/-- Claim C20, amended: for a proper rotation `R` with `zx = -1` both arguments
of the `atan2` of the degenerate branch are zero, whatever the other entries.
Unless the second argument is the negative zero, which it is exactly when
`yy` is `-0.0` and `xz` is `+0.0`, `toAngles` returns `(0, -π/2, 0)` and
`toMatrix(toAngles(R))` is the fixed matrix `[[0,0,1],[0,1,0],[-1,0,0]]`; in
that one case `toAngles` returns `(π, -π/2, 0)` and `toMatrix(toAngles(R))` is
the fixed matrix `[[0,0,-1],[0,-1,0],[-1,0,0]]`.  For a proper rotation `R`
with `zx = +1` the degenerate branch gives `toMatrix(toAngles(R)) = R`. -/
theorem toAngles_degenerate (negZero : Mat3 Bool) (R : Mat3 ℝ) (hR : R.IsProperRotation) :
    (R.zx = -1 →
      0.5 * (R.xy + R.yz) = 0 ∧ 0.5 * (R.yy - R.xz) = 0 ∧
      (¬ (R.yy = 0 ∧ R.xz = 0 ∧ negZero.yy = true ∧ negZero.xz = false) →
        toAngles negZero R = ⟨0, -(Real.pi / 2), 0⟩ ∧
        toMatrix (toAngles negZero R) = lockedDown) ∧
      ((R.yy = 0 ∧ R.xz = 0 ∧ negZero.yy = true ∧ negZero.xz = false) →
        toAngles negZero R = ⟨Real.pi, -(Real.pi / 2), 0⟩ ∧
        toMatrix (toAngles negZero R) = lockedBack)) ∧
    (R.zx = 1 → toMatrix (toAngles negZero R) = R) := by
  constructor
  · intro hzx
    obtain ⟨-, -, -, -, hxy, hxz, hn⟩ := properRotation_pole hR (-1) (by norm_num) hzx
    have h1 : 0.5 * (R.xy + R.yz) = 0 := by rw [hxy]; ring
    have h2 : 0.5 * (R.yy - R.xz) = 0 := by rw [hxz]; ring
    have hbr : ¬ |R.zx| < 1 := by rw [hzx]; norm_num
    have hpos : ¬ R.zx > 0 := by rw [hzx]; norm_num
    have hang : toAngles negZero R =
        ⟨atan2 ⟨sumNegZero R.xy R.yz negZero.xy negZero.yz,
            diffNegZero R.yy R.xz negZero.yy negZero.xz⟩ 0 0, -(Real.pi / 2), 0⟩ := by
      rw [toAngles, if_neg hbr, if_neg hpos, h1, h2, Real.arcsin_neg_one]
    refine ⟨h1, h2, ?_, ?_⟩
    · intro hsign
      have hd : diffNegZero R.yy R.xz negZero.yy negZero.xz = false := by
        rw [← Bool.not_eq_true]
        intro ht
        apply hsign
        simpa [diffNegZero, and_assoc] using ht
      have hang0 : toAngles negZero R = ⟨0, -(Real.pi / 2), 0⟩ := by
        rw [hang, atan2_zero_zero]
        simp [hd]
      exact ⟨hang0, by rw [hang0, toMatrix_lockedDown]⟩
    · rintro ⟨hyy, hxz0, hnyy, hnxz⟩
      have hd : diffNegZero R.yy R.xz negZero.yy negZero.xz = true := by
        simp [diffNegZero, hyy, hxz0, hnyy, hnxz]
      have hyz : R.yz ≠ 0 := by
        intro h0
        rw [hyy, h0] at hn
        norm_num at hn
      have hs : sumNegZero R.xy R.yz negZero.xy negZero.yz = false := by
        simp [sumNegZero, hyz]
      have hangp : toAngles negZero R = ⟨Real.pi, -(Real.pi / 2), 0⟩ := by
        rw [hang, atan2_zero_zero]
        simp [hd, hs]
      exact ⟨hangp, by rw [hangp, toMatrix_lockedBack]⟩
  · intro hzx
    obtain ⟨hzy, hzz, hxx, hyx, hxy, hxz, hn⟩ :=
      properRotation_pole hR 1 (by norm_num) hzx
    have h1 : 0.5 * (R.xy + R.yz) = R.yz := by rw [hxy]; ring
    have h2 : 0.5 * (R.yy - R.xz) = R.yy := by rw [hxz]; ring
    have hbr : ¬ |R.zx| < 1 := by rw [hzx]; norm_num
    have hpos : R.zx > 0 := by rw [hzx]; norm_num
    have hsq : Real.sqrt (R.yy * R.yy + R.yz * R.yz) = 1 := by rw [hn, Real.sqrt_one]
    have hs : ∀ s, Real.sin (atan2 s R.yz R.yy) = R.yz := by
      intro s; rw [sin_atan2, hsq, div_one]
    have hc : ∀ s, Real.cos (atan2 s R.yz R.yy) = R.yy := by
      intro s; rw [cos_atan2 _ _ _ (by rw [hn]; norm_num), hsq, div_one]
    rw [toAngles, if_neg hbr, if_pos hpos, h1, h2, Real.arcsin_one]
    ext <;> simp [toMatrix, hs, hc, hzx, hzy, hzz, hxx, hyx, hxy, hxz]

/-- The round trip sends `gimbalDown` with zeros `+0.0` to the different
matrix `lockedDown`, sends it with `yy = -0.0` to `lockedBack`, and keeps
`gimbalUp` (claim C20, amended, at concrete rotations). -/
theorem toAngles_degenerate_witness :
    toMatrix (toAngles posZeros gimbalDown) = lockedDown ∧ gimbalDown ≠ lockedDown ∧
    toMatrix (toAngles negZeroYY gimbalDown) = lockedBack ∧
    toMatrix (toAngles posZeros gimbalUp) = gimbalUp :=
  ⟨(((toAngles_degenerate posZeros gimbalDown properRotation_gimbalDown).1 rfl).2.2.1
      (by simp [posZeros])).2,
   by
     intro h
     have := congrArg Mat3.xy h
     simp [gimbalDown, lockedDown] at this,
   (((toAngles_degenerate negZeroYY gimbalDown properRotation_gimbalDown).1 rfl).2.2.2
      (by simp [gimbalDown, negZeroYY])).2,
   (toAngles_degenerate posZeros gimbalUp properRotation_gimbalUp).2 rfl⟩

/-! ### The inertia tensor -/

/-- One more nominal point adds the squared cross product to the quadratic
form of the inertia tensor. -/
theorem quadForm_inertiaStep (I : SymMat3 ℝ) (r x : Vec3 ℝ) :
    x.dot ((inertiaStep I r).mulVec x) = x.dot (I.mulVec x) + (r.cross x).normsq := by
  simp only [Vec3.dot, SymMat3.mulVec, inertiaStep, Vec3.cross, Vec3.normsq]
  ring

theorem quadForm_foldl (x : Vec3 ℝ) (l : List (Vec3 ℝ)) :
    ∀ acc : SymMat3 ℝ, x.dot ((l.foldl inertiaStep acc).mulVec x) =
      x.dot (acc.mulVec x) + (l.map (fun r => (r.cross x).normsq)).sum := by
  induction l with
  | nil => intro acc; simp
  | cons r l ih =>
    intro acc
    rw [List.foldl_cons, ih, quadForm_inertiaStep, List.map_cons, List.sum_cons]
    ring

theorem quadForm_inertia (nominal : List (Vec3 ℝ)) (x : Vec3 ℝ) :
    x.dot ((inertia nominal).mulVec x) = (nominal.map (fun r => (r.cross x).normsq)).sum := by
  rw [inertia, quadForm_foldl]
  simp [Vec3.dot, SymMat3.mulVec, SymMat3.zero]

theorem normsq_nonneg (v : Vec3 ℝ) : 0 ≤ v.normsq := by
  have h1 := mul_self_nonneg v.x
  have h2 := mul_self_nonneg v.y
  have h3 := mul_self_nonneg v.z
  simp only [Vec3.normsq]
  linarith

theorem normsq_eq_zero {v : Vec3 ℝ} (h : v.normsq = 0) : v = Vec3.zero := by
  have h1 := mul_self_nonneg v.x
  have h2 := mul_self_nonneg v.y
  have h3 := mul_self_nonneg v.z
  simp only [Vec3.normsq] at h
  ext
  · exact mul_self_eq_zero.mp (by linarith)
  · exact mul_self_eq_zero.mp (by linarith)
  · exact mul_self_eq_zero.mp (by linarith)

theorem sum_normsq_eq_zero (f : Vec3 ℝ → Vec3 ℝ) (l : List (Vec3 ℝ))
    (h : (l.map (fun r => (f r).normsq)).sum = 0) : ∀ r ∈ l, f r = Vec3.zero := by
  induction l with
  | nil => intro r hr; cases hr
  | cons a l ih =>
    rw [List.map_cons, List.sum_cons] at h
    have h1 : 0 ≤ (f a).normsq := normsq_nonneg _
    have h2 : 0 ≤ (l.map (fun r => (f r).normsq)).sum :=
      List.sum_nonneg (by
        intro y hy
        obtain ⟨r, -, rfl⟩ := List.mem_map.mp hy
        exact normsq_nonneg _)
    intro r hr
    rcases List.mem_cons.mp hr with rfl | hr
    · exact normsq_eq_zero (by linarith)
    · exact ih (by linarith) r hr

/-- A vector whose cross product with a non-zero `x` vanishes is a multiple
of `x`. -/
theorem multiple_of_cross_eq_zero {r x : Vec3 ℝ} (hx : x ≠ Vec3.zero)
    (h : r.cross x = Vec3.zero) : ∃ t : ℝ, r = ⟨t * x.x, t * x.y, t * x.z⟩ := by
  have hn : x.normsq ≠ 0 := fun h0 => hx (normsq_eq_zero h0)
  simp only [Vec3.cross, Vec3.zero, Vec3.mk.injEq] at h
  obtain ⟨c1, c2, c3⟩ := h
  simp only [Vec3.normsq] at hn
  refine ⟨r.dot x / x.normsq, ?_⟩
  simp only [Vec3.dot, Vec3.normsq]
  ext
  · simp only; field_simp
    linear_combination x.y * c3 - x.z * c2
  · simp only; field_simp
    linear_combination x.z * c1 - x.x * c3
  · simp only; field_simp
    linear_combination x.x * c2 - x.y * c1

/-- A nominal point on the line of `d` leaves `I · d` as it was. -/
theorem mulVec_foldl_of_multiples (d : Vec3 ℝ) (l : List (Vec3 ℝ))
    (h : ∀ r ∈ l, ∃ t : ℝ, r = ⟨t * d.x, t * d.y, t * d.z⟩) :
    ∀ acc : SymMat3 ℝ, (l.foldl inertiaStep acc).mulVec d = acc.mulVec d := by
  induction l with
  | nil => intro acc; rfl
  | cons r l ih =>
    intro acc
    rw [List.foldl_cons, ih (fun r hr => h r (List.mem_cons_of_mem _ hr))]
    obtain ⟨t, rfl⟩ := h r (List.mem_cons_self _ _)
    ext <;> simp only [SymMat3.mulVec, inertiaStep] <;> ring

/-- A symmetric matrix with a non-zero vector in its kernel has determinant
zero. -/
theorem det_eq_zero_of_kernel (I : SymMat3 ℝ) (x : Vec3 ℝ) (hx : x ≠ Vec3.zero)
    (h : I.mulVec x = Vec3.zero) : I.det = 0 := by
  simp only [SymMat3.mulVec, Vec3.zero, Vec3.mk.injEq] at h
  obtain ⟨h1, h2, h3⟩ := h
  have e1 : I.det * x.x = 0 := by
    simp only [SymMat3.det]
    linear_combination (I.m22 * I.m33 - I.m32 * I.m32) * h1
      + (I.m31 * I.m32 - I.m21 * I.m33) * h2 + (I.m21 * I.m32 - I.m22 * I.m31) * h3
  have e2 : I.det * x.y = 0 := by
    simp only [SymMat3.det]
    linear_combination (I.m31 * I.m32 - I.m21 * I.m33) * h1
      + (I.m11 * I.m33 - I.m31 * I.m31) * h2 + (I.m21 * I.m31 - I.m11 * I.m32) * h3
  have e3 : I.det * x.z = 0 := by
    simp only [SymMat3.det]
    linear_combination (I.m21 * I.m32 - I.m22 * I.m31) * h1
      + (I.m21 * I.m31 - I.m11 * I.m32) * h2 + (I.m11 * I.m22 - I.m21 * I.m21) * h3
  by_contra hd
  apply hx
  ext
  · exact (mul_eq_zero.mp e1).resolve_left hd
  · exact (mul_eq_zero.mp e2).resolve_left hd
  · exact (mul_eq_zero.mp e3).resolve_left hd

/-- A symmetric matrix with determinant zero has a non-zero vector in its
kernel. -/
theorem kernel_of_det_eq_zero (I : SymMat3 ℝ) (h : I.det = 0) :
    ∃ x : Vec3 ℝ, x ≠ Vec3.zero ∧ I.mulVec x = Vec3.zero := by
  let M : Matrix (Fin 3) (Fin 3) ℝ :=
    !![I.m11, I.m21, I.m31; I.m21, I.m22, I.m32; I.m31, I.m32, I.m33]
  have hdet : M.det = 0 := by
    rw [Matrix.det_fin_three]
    simp [M]
    simp only [SymMat3.det] at h
    linear_combination h
  obtain ⟨v, hv, hMv⟩ := Matrix.exists_mulVec_eq_zero_iff.mpr hdet
  refine ⟨⟨v 0, v 1, v 2⟩, ?_, ?_⟩
  · intro h0
    apply hv
    simp only [Vec3.zero, Vec3.mk.injEq] at h0
    funext i
    fin_cases i
    · exact h0.1
    · exact h0.2.1
    · exact h0.2.2
  · have e0 := congrFun hMv 0
    have e1 := congrFun hMv 1
    have e2 := congrFun hMv 2
    simp [M, Matrix.mulVec, Matrix.dotProduct, Fin.sum_univ_three] at e0 e1 e2
    ext
    · simp only [SymMat3.mulVec, Vec3.zero]; linarith
    · simp only [SymMat3.mulVec, Vec3.zero]; linarith
    · simp only [SymMat3.mulVec, Vec3.zero]; linarith

theorem det_inertia_eq_zero_iff (nominal : List (Vec3 ℝ)) :
    (inertia nominal).det = 0 ↔ OnLineThroughOrigin nominal := by
  constructor
  · intro h
    obtain ⟨x, hx, hk⟩ := kernel_of_det_eq_zero _ h
    have hq := quadForm_inertia nominal x
    rw [hk] at hq
    have hsum : (nominal.map (fun r => (r.cross x).normsq)).sum = 0 := by
      rw [← hq]; simp [Vec3.dot, Vec3.zero]
    have hall := sum_normsq_eq_zero (fun r => r.cross x) nominal hsum
    exact ⟨x, hx, fun r hr => multiple_of_cross_eq_zero hx (hall r hr)⟩
  · rintro ⟨d, hd, hall⟩
    apply det_eq_zero_of_kernel _ d hd
    rw [inertia, mulVec_foldl_of_multiples d nominal hall]
    simp [SymMat3.mulVec, SymMat3.zero, Vec3.zero]


theorem onLine_nil : OnLineThroughOrigin [] :=
  ⟨⟨1, 0, 0⟩, by simp [Vec3.zero], fun r hr => by cases hr⟩

theorem onLine_single (p : Vec3 ℝ) : OnLineThroughOrigin [p] := by
  by_cases hp : p = Vec3.zero
  · refine ⟨⟨1, 0, 0⟩, by simp [Vec3.zero], fun r hr => ⟨0, ?_⟩⟩
    rw [List.mem_singleton.mp hr, hp]
    simp [Vec3.zero]
  · refine ⟨p, hp, fun r hr => ⟨1, ?_⟩⟩
    rw [List.mem_singleton.mp hr]
    simp

/-- Claim C19: the inertia tensor `I` that `diffRot` builds is symmetric and
positive semidefinite, with `xᵀ·I·x = Σ_j |nominal_j × x|²` for every vector
`x`; and `I` is singular, so that `I·dOmega = rhs` has no unique solution and
`solve` fails, exactly when all nominal points lie on one line through the
origin, which is the case for the empty and for every one-point sequence. -/
theorem inertia_properties (nominal : List (Vec3 ℝ)) :
    (inertia nominal).toMat3.transpose = (inertia nominal).toMat3 ∧
    (∀ x : Vec3 ℝ, (inertia nominal).toMat3.mulVec x = (inertia nominal).mulVec x) ∧
    (∀ x : Vec3 ℝ, x.dot ((inertia nominal).mulVec x) =
      (nominal.map (fun r => (r.cross x).normsq)).sum) ∧
    (∀ x : Vec3 ℝ, 0 ≤ x.dot ((inertia nominal).mulVec x)) ∧
    ((inertia nominal).det = 0 ↔ OnLineThroughOrigin nominal) ∧
    ((inertia nominal).det = 0 ↔
      ∃ x : Vec3 ℝ, x ≠ Vec3.zero ∧ (inertia nominal).mulVec x = Vec3.zero) ∧
    (∀ rhs, solve (inertia nominal) rhs = none ↔ (inertia nominal).det = 0) ∧
    (inertia ([] : List (Vec3 ℝ))).det = 0 ∧ OnLineThroughOrigin [] ∧
    (∀ p : Vec3 ℝ, (inertia [p]).det = 0 ∧ OnLineThroughOrigin [p]) := by
  refine ⟨rfl, fun x => rfl, quadForm_inertia nominal, ?_, det_inertia_eq_zero_iff nominal,
    ?_, ?_, ?_, onLine_nil, ?_⟩
  · intro x
    rw [quadForm_inertia]
    apply List.sum_nonneg
    intro y hy
    obtain ⟨r, -, rfl⟩ := List.mem_map.mp hy
    exact normsq_nonneg _
  · constructor
    · exact kernel_of_det_eq_zero _
    · rintro ⟨x, hx, hk⟩
      exact det_eq_zero_of_kernel _ x hx hk
  · intro rhs
    by_cases hd : (inertia nominal).det = 0 <;> simp [solve, hd]
  · exact (det_inertia_eq_zero_iff []).mpr onLine_nil
  · intro p
    exact ⟨(det_inertia_eq_zero_iff [p]).mpr (onLine_single p), onLine_single p⟩

/-- The skew cloud has an invertible inertia tensor, so its points do not lie
on one line through the origin (claim C19 at `skewCloud`). -/
theorem inertia_properties_witness :
    (inertia skewCloud).det = 15 ∧ ¬ OnLineThroughOrigin skewCloud := by
  have hd : (inertia skewCloud).det = 15 := by
    rw [inertia_skewCloud]
    simp [SymMat3.det]
    norm_num
  refine ⟨hd, fun h => ?_⟩
  have h0 := (inertia_properties skewCloud).2.2.2.2.1.mpr h
  rw [hd] at h0
  norm_num at h0


/-- Points on one line through the origin are collinear, so a cloud that is
not collinear has an invertible inertia tensor. -/
theorem det_inertia_ne_zero_of_not_collinear (nominal : List (Vec3 ℝ))
    (h : ¬ Collinear nominal) : (inertia nominal).det ≠ 0 := by
  intro hd
  obtain ⟨d, -, hall⟩ := (det_inertia_eq_zero_iff nominal).mp hd
  apply h
  refine ⟨⟨0, 0, 0⟩, d, fun q hq => ?_⟩
  obtain ⟨t, ht⟩ := hall q hq
  exact ⟨t, by rw [ht]; simp⟩

end align
